import Mathlib

/-!
Shallow embedding of the block-editor core of the repository:
the `useBlocks` hook (block store, bounded undo/redo history, focus
tracker) and the Editor's selection-rewrite reconciliation.
Machine state is modelled as an explicit record; React `useState` /
`useRef` cells become record fields and each exported operation becomes
a state-passing function.  `JSON.parse(JSON.stringify(x))` deep copies
are the identity on this pure data model.
-/

namespace NotionBlocks

/-- A document block (`Block` in `types/editor`): opaque id, plain text
content, and the fixed tag `"text"`. -/
structure Block where
  id : String
  content : String
  type : String
  deriving Repr, DecidableEq

/-- `MAX_HISTORY_SIZE` from `useBlocks`. -/
def MAX_HISTORY_SIZE : Nat := 100

/-- The full state of the `useBlocks` hook: the live block list, the
history ref (list of document snapshots), the history index, the
`isUndoRedo` replay flag, and the focus-tracker refs. -/
structure St where
  blocks : List Block
  history : List (List Block)
  historyIndex : Nat
  isUndoRedo : Bool
  focusBlockId : Option String
  cursorPosition : Nat
  deriving Repr, DecidableEq

/-- JS `Array.prototype.findIndex`, with `-1` rendered as `none`. -/
def findIndex (p : Block → Bool) : List Block → Option Nat
  | [] => none
  | b :: bs => if p b then some 0 else (findIndex p bs).map (· + 1)

/-- JS `arr.splice(i, 0, b)`: insert `b` at position `i` (appending when
`i` is past the end). -/
def spliceInsert (b : Block) : List Block → Nat → List Block
  | l, 0 => b :: l
  | [], _ + 1 => [b]
  | x :: xs, n + 1 => x :: spliceInsert b xs n

/-- Initial hook state (`useBlocks(initialBlocks)`): live blocks are the
initial blocks, the history holds that single snapshot, index 0, replay
flag clear, no pending focus. -/
def initState (initialBlocks : List Block) : St :=
  { blocks := initialBlocks
    history := [initialBlocks]
    historyIndex := 0
    isUndoRedo := false
    focusBlockId := none
    cursorPosition := 0 }

/-- `saveToHistory(newBlocks)`: if the replay flag is set, clear it and
record nothing; otherwise truncate the redo tail (`slice(0, index+1)`),
push a snapshot, trim to the last `MAX_HISTORY_SIZE` entries
(`slice(-MAX_HISTORY_SIZE)`), and point the index at the new last entry.
(The caller separately assigns `blocks`.) -/
def saveToHistory (s : St) (newBlocks : List Block) : St :=
  if s.isUndoRedo then
    { s with isUndoRedo := false }
  else
    let h₁ := s.history.take (s.historyIndex + 1)
    let h₂ := h₁ ++ [newBlocks]
    let h₃ := if h₂.length > MAX_HISTORY_SIZE
              then h₂.drop (h₂.length - MAX_HISTORY_SIZE) else h₂
    { s with history := h₃, historyIndex := h₃.length - 1 }

/-- `undo()`: when the index is positive, decrement it, set the replay
flag, and load the snapshot at the new index as the live blocks. -/
def undo (s : St) : St :=
  if 0 < s.historyIndex then
    let newIndex := s.historyIndex - 1
    { s with isUndoRedo := true
             historyIndex := newIndex
             blocks := (s.history[newIndex]?).getD s.blocks }
  else s

/-- `redo()`: when the index is below the last entry, increment it, set
the replay flag, and load the snapshot at the new index. -/
def redo (s : St) : St :=
  if s.historyIndex < s.history.length - 1 then
    let newIndex := s.historyIndex + 1
    { s with isUndoRedo := true
             historyIndex := newIndex
             blocks := (s.history[newIndex]?).getD s.blocks }
  else s

/-- `canUndo := historyIndex > 0`. -/
def canUndo (s : St) : Bool := decide (0 < s.historyIndex)

/-- `canRedo := historyIndex < history.length - 1`. -/
def canRedo (s : St) : Bool := decide (s.historyIndex < s.history.length - 1)

/-- `updateBlock(id, content)`: map over the blocks replacing the
content of the block with the given id, then record to history. -/
def updateBlock (s : St) (id content : String) : St :=
  let newBlocks := s.blocks.map fun b =>
    if b.id == id then { b with content := content } else b
  let s' := saveToHistory s newBlocks
  { s' with blocks := newBlocks }

/-- `addBlockAfter(afterId, content)`: build a new block (its generated
id is passed in as `newId`, standing for `generateId()`), insert it
right after `afterId` (or append when `afterId` is absent), record to
history, point the focus tracker at the new block at offset 0, and
return the new id. -/
def addBlockAfter (s : St) (afterId newId content : String) : St × String :=
  let newBlock : Block := { id := newId, content := content, type := "text" }
  let newBlocks :=
    match findIndex (fun b => b.id == afterId) s.blocks with
    | none => s.blocks ++ [newBlock]
    | some i => spliceInsert newBlock s.blocks (i + 1)
  let s' := saveToHistory s newBlocks
  ({ s' with blocks := newBlocks
             focusBlockId := some newBlock.id
             cursorPosition := 0 },
   newBlock.id)

/-- `deleteBlock(id)`: no-op when only one block remains or the id is
absent; otherwise point the focus tracker at the predecessor (when one
exists), drop every block with the given id, and record to history. -/
def deleteBlock (s : St) (id : String) : St :=
  if s.blocks.length ≤ 1 then s
  else
    match findIndex (fun b => b.id == id) s.blocks with
    | none => s
    | some i =>
      let s₁ :=
        match i, s.blocks[i - 1]? with
        | 0, _ => s
        | _ + 1, some prev =>
          { s with focusBlockId := some prev.id
                   cursorPosition := prev.content.length }
        | _ + 1, none => s  -- unreachable: `findIndex` returned an in-range index
      let newBlocks := s.blocks.filter fun b => !(b.id == id)
      let s₂ := saveToHistory s₁ newBlocks
      { s₂ with blocks := newBlocks }

/-- `mergeWithPrevious(id)`: no-op when the id is absent or names the
first block; otherwise concatenate the block's content onto the previous
block's content, remove the block (`newBlocks[index-1] = merged;
splice(index, 1)`), point the focus tracker at the previous block at its
original content length, and record to history. -/
def mergeWithPrevious (s : St) (id : String) : St :=
  match findIndex (fun b => b.id == id) s.blocks with
  | none => s
  | some 0 => s
  | some (i + 1) =>
    match s.blocks[i + 1]?, s.blocks[i]? with
    | some currentBlock, some previousBlock =>
      let mergedBlock : Block :=
        { previousBlock with
            content := previousBlock.content ++ currentBlock.content }
      let newBlocks := (s.blocks.set i mergedBlock).eraseIdx (i + 1)
      let s₁ := { s with cursorPosition := previousBlock.content.length
                         focusBlockId := some previousBlock.id }
      let s₂ := saveToHistory s₁ newBlocks
      { s₂ with blocks := newBlocks }
    | _, _ => s  -- unreachable: `findIndex` returned an in-range index

/-- `getFocusInfo()`: return the pending `(id, position)` and clear the
block id (the position ref is left as-is). -/
def getFocusInfo (s : St) : (Option String × Nat) × St :=
  ((s.focusBlockId, s.cursorPosition), { s with focusBlockId := none })

/-- `setFocusBlock(id, position)`. -/
def setFocusBlock (s : St) (id : String) (position : Nat) : St :=
  { s with focusBlockId := some id, cursorPosition := position }

/-- One user-level operation on the hook state.  An `insert` carries the
id produced by `generateId()` for the new block. -/
inductive Op where
  | update (id content : String)
  | insert (afterId newId content : String)
  | delete (id : String)
  | merge (id : String)
  | undoOp
  | redoOp
  deriving Repr, DecidableEq

/-- Whether an operation is one of the four document mutations (as
opposed to an undo/redo replay). -/
def Op.isMut : Op → Bool
  | .update _ _ => true
  | .insert _ _ _ => true
  | .delete _ => true
  | .merge _ => true
  | .undoOp => false
  | .redoOp => false

/-- Run one operation on the hook state. -/
def applyOp (s : St) : Op → St
  | .update id content => updateBlock s id content
  | .insert afterId newId content => (addBlockAfter s afterId newId content).1
  | .delete id => deleteBlock s id
  | .merge id => mergeWithPrevious s id
  | .undoOp => undo s
  | .redoOp => redo s

/-- Run a list of operations left to right. -/
def applyOps (s : St) : List Op → St
  | [] => s
  | op :: rest => applyOps (applyOp s op) rest

/-- `undo` iterated `n` times. -/
def undoN : Nat → St → St
  | 0, s => s
  | n + 1, s => undoN n (undo s)

/-- `redo` iterated `n` times. -/
def redoN : Nat → St → St
  | 0, s => s
  | n + 1, s => redoN n (redo s)

/-! ### The Editor's rewrite orchestration (`handleSelectionAction`)

The Editor component owns the hook state plus an `isRewriting`
in-flight flag.  The DOM-derived inputs of `handleSelectionAction`
(whether the selection is collapsed, the selected text, the affected
block ids resolved by `getBlocksInRange`, the boundary text before/after
the selection in the first/last affected block, and whether the first
and last block elements were found in the container) are passed as
parameters, and the awaited `rewriteText` call's outcome is passed as an
`Except`. -/

/-- JS `String.prototype.trim`: strip whitespace from both ends. -/
def jsTrim (s : String) : String :=
  ⟨((s.data.dropWhile Char.isWhitespace).reverse.dropWhile
      Char.isWhitespace).reverse⟩

/-- Editor component state: the `useBlocks` state plus the
`isRewriting` in-flight flag. -/
structure EditorSt where
  bs : St
  isRewriting : Bool
  deriving Repr, DecidableEq

/-!
The multi-block reconciliation issues several mutation calls in one
tick, through callbacks captured at a single render.  `saveToHistory`
is a `useCallback` that closes over the render-scoped `historyIndex`
value, so all these same-tick calls read the same captured index
`idx0`; the `history`, `isUndoRedo` and focus cells are refs and
thread live between the calls; the `blocks` value threads through the
`setBlocks` functional-updater queue; and each `setHistoryIndex(v)`
only queues `v`, the component's `historyIndex` becoming the last
queued value once the tick ends.  The `…At` variants below model one
such render-captured call: they read `idx0` instead of the state's
`historyIndex` field (which they leave untouched), and return the value
they queued with `setHistoryIndex`, if any.
-/

/-- `saveToHistory(newBlocks)` as captured at one render, reading the
captured `idx0`: truncate at `idx0` (`slice(0, idx0+1)`), push, trim,
and queue `setHistoryIndex(h₃.length - 1)`. -/
def saveToHistoryAt (idx0 : Nat) (s : St) (newBlocks : List Block) :
    St × Option Nat :=
  if s.isUndoRedo then
    ({ s with isUndoRedo := false }, none)
  else
    let h₁ := s.history.take (idx0 + 1)
    let h₂ := h₁ ++ [newBlocks]
    let h₃ := if h₂.length > MAX_HISTORY_SIZE
              then h₂.drop (h₂.length - MAX_HISTORY_SIZE) else h₂
    ({ s with history := h₃ }, some (h₃.length - 1))

/-- `updateBlock(id, content)` as captured at one render. -/
def updateBlockAt (idx0 : Nat) (s : St) (id content : String) :
    St × Option Nat :=
  let newBlocks := s.blocks.map fun b =>
    if b.id == id then { b with content := content } else b
  let r := saveToHistoryAt idx0 s newBlocks
  ({ r.1 with blocks := newBlocks }, r.2)

/-- `deleteBlock(id)` as captured at one render. -/
def deleteBlockAt (idx0 : Nat) (s : St) (id : String) : St × Option Nat :=
  if s.blocks.length ≤ 1 then (s, none)
  else
    match findIndex (fun b => b.id == id) s.blocks with
    | none => (s, none)
    | some i =>
      let s₁ :=
        match i, s.blocks[i - 1]? with
        | 0, _ => s
        | _ + 1, some prev =>
          { s with focusBlockId := some prev.id
                   cursorPosition := prev.content.length }
        | _ + 1, none => s  -- unreachable: `findIndex` returned an in-range index
      let newBlocks := s.blocks.filter fun b => !(b.id == id)
      let r := saveToHistoryAt idx0 s₁ newBlocks
      ({ r.1 with blocks := newBlocks }, r.2)

/-- The reconciliation's delete loop (`for i = len-1 downto 1:
deleteBlock(ids[i])`), run over the already-reversed id list: each call
shares the captured `idx0`, and a later queued `setHistoryIndex` value
supersedes an earlier one. -/
def runDeletesAt (idx0 : Nat) : List String → St × Option Nat → St × Option Nat
  | [], sq => sq
  | d :: ds, sq =>
    let r := deleteBlockAt idx0 sq.1 d
    runDeletesAt idx0 ds (r.1, r.2 <|> sq.2)

/-- One full run of `handleSelectionAction`: guard checks, the awaited
external rewrite (its outcome given by `rewriteResult`), then
reconciliation.  Multi-block selections are reconciled through the
block store: `updateBlock` on the first affected block, then
`deleteBlock` from last to second — all in one tick through callbacks
captured at a single render, so every call reads the same captured
`historyIndex` (see the `…At` variants above), and the component's
`historyIndex` afterwards is the last value queued during the tick (or
the captured value, when nothing was queued).  The single-block path
replaces the selection directly in the DOM via `execCommand` and
performs no block store call of its own.  The `finally` clause clears
`isRewriting`. -/
def handleSelectionAction (es : EditorSt) (selCollapsed : Bool)
    (selectedText : String) (affectedBlockIds : List String)
    (textBefore textAfter : String) (domElsFound : Bool)
    (rewriteResult : Except String String) : EditorSt :=
  if selCollapsed || es.isRewriting then es
  else if jsTrim selectedText == "" then es
  else
    match rewriteResult with
    | .error _ => { es with isRewriting := false }
    | .ok rewrittenText =>
      if affectedBlockIds.length > 1 then
        if domElsFound then
          let newContent := textBefore ++ rewrittenText ++ textAfter
          let idx0 := es.bs.historyIndex
          let u := updateBlockAt idx0 es.bs (affectedBlockIds.headD "")
            newContent
          let fin := runDeletesAt idx0 (affectedBlockIds.drop 1).reverse u
          { bs := { fin.1 with historyIndex := fin.2.getD idx0 },
            isRewriting := false }
        else { es with isRewriting := false }
      else
        -- single-block path: DOM-level replacement only
        { es with isRewriting := false }

/-- Shorthand for a text block in examples. -/
def mkB (i c : String) : Block := ⟨i, c, "text"⟩

/-! ### Proof-facing definitions: invariants and run predicates -/

/-- A concrete hook state with a pending focus request. -/
def focusDemo : St :=
  { blocks := [mkB "p" "foo"], history := [[mkB "p" "foo"]],
    historyIndex := 0, isUndoRedo := false, focusBlockId := some "p",
    cursorPosition := 2 }

/-- State of a run of at most `k` mutations from initial blocks
`blocks0`: replay flag clear, cursor at the end of the log, log within
`k + 1` entries (so the bound was never hit), oldest entry the initial
document, current entry the live document. -/
def Reach (blocks0 : List Block) (k : Nat) (s : St) : Prop :=
  s.isUndoRedo = false ∧
  s.historyIndex + 1 = s.history.length ∧
  s.history.length ≤ k + 1 ∧
  s.history.head? = some blocks0 ∧
  s.history[s.historyIndex]? = some s.blocks

/-- Invariant of any run of mutations: replay flag clear, cursor at the
end of the log, log within the capacity bound, current entry the live
document. -/
def Cap (s : St) : Prop :=
  s.isUndoRedo = false ∧
  s.historyIndex + 1 = s.history.length ∧
  s.history.length ≤ 100 ∧
  s.history[s.historyIndex]? = some s.blocks

/-- The truncate-push-trim history update performed by a recording
`saveToHistory` (spelled out without `let`s, for reasoning). -/
def pushTrim (h : List (List Block)) (idx : Nat) (nb : List Block) :
    List (List Block) :=
  if (h.take (idx + 1) ++ [nb]).length > MAX_HISTORY_SIZE
  then (h.take (idx + 1) ++ [nb]).drop
    ((h.take (idx + 1) ++ [nb]).length - MAX_HISTORY_SIZE)
  else h.take (idx + 1) ++ [nb]

/-- A well-formed document: nonempty, with pairwise-distinct block ids. -/
def GoodDoc (l : List Block) : Prop :=
  l ≠ [] ∧ (l.map Block.id).Nodup

instance : DecidablePred GoodDoc := fun l =>
  inferInstanceAs (Decidable (l ≠ [] ∧ (l.map Block.id).Nodup))

/-- A well-formed hook state: live document and every history snapshot
well-formed, cursor in range. -/
def GoodState (s : St) : Prop :=
  GoodDoc s.blocks ∧ (∀ e ∈ s.history, GoodDoc e) ∧
  s.historyIndex < s.history.length

instance : DecidablePred GoodState := fun s =>
  inferInstanceAs (Decidable (GoodDoc s.blocks ∧
    (∀ e ∈ s.history, GoodDoc e) ∧ s.historyIndex < s.history.length))

/-- Side condition for an operation in a run: an `insert` must carry a
generated id that is fresh for the current document. -/
def opOkB (s : St) : Op → Bool
  | .insert _ newId _ => s.blocks.all fun b => !(b.id == newId)
  | _ => true

/-- Every `insert` along the run carries a fresh generated id. -/
def okRunB (s : St) : List Op → Bool
  | [] => true
  | op :: rest => opOkB s op && okRunB (applyOp s op) rest

/-- A state whose cursor sits on the last history entry, which is the
live document, with no replay pending — the shape every recording
operation preserves. -/
def RecState (s : St) : Prop :=
  s.isUndoRedo = false ∧
  s.historyIndex + 1 = s.history.length ∧
  s.history[s.historyIndex]? = some s.blocks

/-- The block-store operation sequence performed by the multi-block
reconciliation: one update of the first affected block, then deletes of
the remaining affected blocks from last to second. -/
def reconcileOps (ids : List String) (newContent : String) : List Op :=
  Op.update (ids.headD "") newContent :: ((ids.drop 1).reverse.map Op.delete)

/-! ### Basic lemmas about the embedded operations -/

theorem saveToHistory_blocks (s : St) (nb : List Block) :
    (saveToHistory s nb).blocks = s.blocks := by
  unfold saveToHistory; split <;> rfl

theorem saveToHistory_focusBlockId (s : St) (nb : List Block) :
    (saveToHistory s nb).focusBlockId = s.focusBlockId := by
  unfold saveToHistory; split <;> rfl

theorem saveToHistory_cursorPosition (s : St) (nb : List Block) :
    (saveToHistory s nb).cursorPosition = s.cursorPosition := by
  unfold saveToHistory; split <;> rfl

theorem findIndex_lt_length {p : Block → Bool} :
    ∀ {l : List Block} {i : Nat}, findIndex p l = some i → i < l.length := by
  intro l
  induction l with
  | nil => intro i h; simp [findIndex] at h
  | cons b bs ih =>
    intro i h
    by_cases hb : p b
    · simp [findIndex, hb] at h
      simp only [List.length_cons]
      omega
    · simp [findIndex, hb] at h
      obtain ⟨j, hj, rfl⟩ := h
      have := ih hj
      simp only [List.length_cons]
      omega

theorem findIndex_some_get {p : Block → Bool} :
    ∀ {l : List Block} {i : Nat}, findIndex p l = some i →
      ∃ b, l[i]? = some b ∧ p b = true := by
  intro l
  induction l with
  | nil => intro i h; simp [findIndex] at h
  | cons b bs ih =>
    intro i h
    by_cases hb : p b
    · simp [findIndex, hb] at h
      subst h
      exact ⟨b, by simp, hb⟩
    · simp [findIndex, hb] at h
      obtain ⟨j, hj, rfl⟩ := h
      obtain ⟨c, hc, hpc⟩ := ih hj
      exact ⟨c, by simpa using hc, hpc⟩

theorem findIndex_none_forall {p : Block → Bool} :
    ∀ {l : List Block}, findIndex p l = none → ∀ b ∈ l, p b = false := by
  intro l
  induction l with
  | nil => intro _ b hb; simp at hb
  | cons c cs ih =>
    intro h b hb
    by_cases hc : p c
    · simp [findIndex, hc] at h
    · simp [findIndex, hc] at h
      rcases List.mem_cons.mp hb with hb | hb
      · subst hb; simpa using hc
      · exact ih h b hb

theorem findIndex_isSome_of_mem {p : Block → Bool} {b : Block}
    (hp : p b = true) :
    ∀ {l : List Block}, b ∈ l → ∃ i, findIndex p l = some i := by
  intro l
  induction l with
  | nil => intro hb; simp at hb
  | cons c cs ih =>
    intro hb
    by_cases hc : p c
    · exact ⟨0, by simp [findIndex, hc]⟩
    · rcases List.mem_cons.mp hb with hb | hb
      · subst hb; simp [hp] at hc
      · obtain ⟨j, hj⟩ := ih hb
        exact ⟨j + 1, by simp [findIndex, hc, hj]⟩

theorem spliceInsert_eq_take_drop (b : Block) :
    ∀ (l : List Block) (n : Nat), n ≤ l.length →
      spliceInsert b l n = l.take n ++ b :: l.drop n := by
  intro l
  induction l with
  | nil =>
    intro n hn
    simp only [List.length_nil, Nat.le_zero] at hn
    subst hn
    rfl
  | cons x xs ih =>
    intro n hn
    cases n with
    | zero => rfl
    | succ m =>
      simp only [spliceInsert, List.take_succ_cons, List.drop_succ_cons,
        List.cons_append]
      rw [ih m (by simpa using hn)]

theorem set_eraseIdx_succ (m : Block) :
    ∀ (l : List Block) (i : Nat), i + 1 < l.length →
      (l.set i m).eraseIdx (i + 1) = l.take i ++ m :: l.drop (i + 2) := by
  intro l
  induction l with
  | nil => intro i h; simp at h
  | cons x xs ih =>
    intro i h
    cases i with
    | zero =>
      cases xs with
      | nil => simp at h
      | cons y ys => rfl
    | succ j =>
      simp only [List.set_cons_succ, List.eraseIdx_cons_succ,
        List.take_succ_cons, List.drop_succ_cons, List.cons_append]
      rw [ih j (by simpa using h)]

theorem map_eq_self_of {f : Block → Block} :
    ∀ {l : List Block}, (∀ b ∈ l, f b = b) → l.map f = l := by
  intro l
  induction l with
  | nil => intro _; rfl
  | cons b bs ih =>
    intro h
    simp only [List.map_cons]
    rw [h b (by simp), ih fun c hc => h c (by simp [hc])]

theorem getElem?_some_lt {α : Type _} {l : List α} {i : Nat} {b : α}
    (h : l[i]? = some b) : i < l.length := by
  by_contra hlt
  rw [List.getElem?_eq_none (by omega)] at h
  exact Option.noConfusion h

theorem head?_append_left {α : Type _} (l l' : List α) (h : l ≠ []) :
    (l ++ l').head? = l.head? := by
  cases l with
  | nil => exact absurd rfl h
  | cons a t => rfl

/-! ### Claim theorems: focus tracker, merge, insert, error handling -/

/-- Claim C8: with a focus request pending, `getFocusInfo` returns the
pending `(blockId, offset)` the first time, and a second immediate call
(no intervening `setFocusBlock` or structural mutation) returns no
block id. -/
theorem consumeFocus_at_most_once (s : St) (b : String)
    (h : s.focusBlockId = some b) :
    (getFocusInfo s).1 = (some b, s.cursorPosition) ∧
    (getFocusInfo (getFocusInfo s).2).1.1 = none := by
  simp [getFocusInfo, h]


/-- Witness for C8 at a concrete pending request. -/
theorem consumeFocus_at_most_once_witness :
    (getFocusInfo focusDemo).1 = (some "p", 2) ∧
    (getFocusInfo (getFocusInfo focusDemo).2).1.1 = none :=
  consumeFocus_at_most_once focusDemo "p" rfl

/-- Claim C6: `mergeWithPrevious(id)` is a no-op when `id` is absent or
names the first block; otherwise the previous block keeps its id with
its original content concatenated with the merged block's content
(previous first), the merged block is removed, and the focus request
targets the previous block at its original content length. -/
theorem mergeWithPrevious_spec (s : St) (id : String) :
    ((findIndex (fun b => b.id == id) s.blocks = none ∨
      findIndex (fun b => b.id == id) s.blocks = some 0) →
        mergeWithPrevious s id = s) ∧
    (∀ i prev cur, findIndex (fun b => b.id == id) s.blocks = some (i + 1) →
      s.blocks[i]? = some prev → s.blocks[i + 1]? = some cur →
      (mergeWithPrevious s id).blocks =
        s.blocks.take i ++
          { prev with content := prev.content ++ cur.content } ::
            s.blocks.drop (i + 2) ∧
      (mergeWithPrevious s id).focusBlockId = some prev.id ∧
      (mergeWithPrevious s id).cursorPosition = prev.content.length) := by
  constructor
  · rintro (h | h) <;> · unfold mergeWithPrevious; rw [h]
  · intro i prev cur hfind hprev hcur
    have hlt : i + 1 < s.blocks.length := getElem?_some_lt hcur
    unfold mergeWithPrevious
    rcases hf : findIndex (fun b => b.id == id) s.blocks with _ | (_ | j)
    · rw [hf] at hfind; cases hfind
    · rw [hf] at hfind; cases hfind
    · rw [hf] at hfind
      injection hfind with hji
      have : j = i := by omega
      subst this
      simp only []
      rw [hcur, hprev]
      simp only []
      refine ⟨?_, ?_, ?_⟩
      · exact set_eraseIdx_succ _ s.blocks _ hlt
      · simp [saveToHistory_focusBlockId]
      · simp [saveToHistory_cursorPosition]

/-- Witness for C6: merging the second of `["foo", "bar"]` yields the
single block `"foobar"` with focus on the previous block at offset 3. -/
theorem mergeWithPrevious_spec_witness :
    (mergeWithPrevious (initState [mkB "p" "foo", mkB "q" "bar"]) "q").blocks =
      [mkB "p" "foobar"] ∧
    (mergeWithPrevious (initState [mkB "p" "foo", mkB "q" "bar"]) "q").focusBlockId
      = some "p" ∧
    (mergeWithPrevious (initState [mkB "p" "foo", mkB "q" "bar"]) "q").cursorPosition
      = 3 := by
  have h := (mergeWithPrevious_spec (initState [mkB "p" "foo", mkB "q" "bar"]) "q").2
    0 (mkB "p" "foo") (mkB "q" "bar") (by decide) (by decide) (by decide)
  refine ⟨?_, ?_, ?_⟩
  · rw [h.1]; decide
  · rw [h.2.1]; decide
  · rw [h.2.2]; decide

/-- Claim C7: `addBlockAfter(afterId, content)` returns the generated
id, focuses the new block at offset 0, keeps every pre-existing block
(id, content, relative order), inserts the new block immediately after
`afterId` when present, and appends it at the end when absent. -/
theorem insertAfter_spec (s : St) (afterId newId content : String)
    (hfresh : ∀ b ∈ s.blocks, b.id ≠ newId) :
    (addBlockAfter s afterId newId content).2 = newId ∧
    (addBlockAfter s afterId newId content).1.focusBlockId = some newId ∧
    (addBlockAfter s afterId newId content).1.cursorPosition = 0 ∧
    ((addBlockAfter s afterId newId content).1.blocks.filter
        (fun b => !(b.id == newId))) = s.blocks ∧
    (∀ i, findIndex (fun b => b.id == afterId) s.blocks = some i →
      (addBlockAfter s afterId newId content).1.blocks =
        s.blocks.take (i + 1) ++ mkB newId content :: s.blocks.drop (i + 1)) ∧
    (findIndex (fun b => b.id == afterId) s.blocks = none →
      (addBlockAfter s afterId newId content).1.blocks =
        s.blocks ++ [mkB newId content]) := by
  have hblocks : (addBlockAfter s afterId newId content).1.blocks =
      match findIndex (fun b => b.id == afterId) s.blocks with
      | none => s.blocks ++ [mkB newId content]
      | some i => spliceInsert (mkB newId content) s.blocks (i + 1) := by
    unfold addBlockAfter
    rcases findIndex (fun b => b.id == afterId) s.blocks with _ | i <;> rfl
  have hsub : ∀ l' : List Block, l' ⊆ s.blocks →
      l'.filter (fun b => !(b.id == newId)) = l' := by
    intro l' hl'
    apply List.filter_eq_self.mpr
    intro b hb
    simpa using hfresh b (hl' hb)
  refine ⟨rfl, ?_, ?_, ?_, ?_, ?_⟩
  · unfold addBlockAfter
    rcases findIndex (fun b => b.id == afterId) s.blocks with _ | i <;> rfl
  · unfold addBlockAfter
    rcases findIndex (fun b => b.id == afterId) s.blocks with _ | i <;> rfl
  · rw [hblocks]
    rcases hf : findIndex (fun b => b.id == afterId) s.blocks with _ | i
    · simp only [List.filter_append]
      rw [hsub s.blocks (fun _ h => h)]
      simp [mkB]
    · simp only []
      have hle : i + 1 ≤ s.blocks.length := findIndex_lt_length hf
      rw [spliceInsert_eq_take_drop _ _ _ hle]
      rw [List.filter_append]
      have hcons : List.filter (fun b => !(b.id == newId))
          (mkB newId content :: s.blocks.drop (i + 1)) =
          s.blocks.drop (i + 1) := by
        rw [List.filter_cons]
        simp [mkB, hsub _ (List.drop_subset _ _)]
      rw [hcons, hsub _ (List.take_subset _ _)]
      exact List.take_append_drop _ _
  · intro i hf
    rw [hblocks, hf]
    simp only []
    exact spliceInsert_eq_take_drop _ _ _ (findIndex_lt_length hf)
  · intro hf
    rw [hblocks, hf]

/-! ### Normal forms of `saveToHistory` -/

theorem updateBlock_def (s : St) (id content : String) :
    updateBlock s id content =
      { saveToHistory s (s.blocks.map fun b =>
          if b.id == id then { b with content := content } else b)
        with blocks := s.blocks.map fun b =>
          if b.id == id then { b with content := content } else b } := rfl

theorem saveToHistory_flagged (s : St) (nb : List Block)
    (hflag : s.isUndoRedo = true) :
    saveToHistory s nb = { s with isUndoRedo := false } := by
  unfold saveToHistory
  rw [hflag]
  simp

theorem saveToHistory_normal (s : St) (nb : List Block)
    (hflag : s.isUndoRedo = false)
    (hidx : s.historyIndex + 1 = s.history.length)
    (hlen : s.history.length ≤ 99) :
    saveToHistory s nb =
      { s with history := s.history ++ [nb],
               historyIndex := s.history.length } := by
  unfold saveToHistory
  rw [hflag]
  simp only [Bool.false_eq_true, if_false]
  have htake : s.history.take (s.historyIndex + 1) = s.history := by
    rw [hidx]; exact List.take_length s.history
  rw [htake]
  have hcond : ¬ ((s.history ++ [nb]).length > MAX_HISTORY_SIZE) := by
    simp only [List.length_append, List.length_singleton, MAX_HISTORY_SIZE]
    omega
  rw [if_neg hcond]
  have harith : (s.history ++ [nb]).length - 1 = s.history.length := by
    simp
  rw [harith]

theorem saveToHistory_full (s : St) (nb : List Block)
    (hflag : s.isUndoRedo = false)
    (hidx : s.historyIndex + 1 = s.history.length)
    (hlen : s.history.length = 100) :
    saveToHistory s nb =
      { s with history := (s.history ++ [nb]).drop 1,
               historyIndex := 99 } := by
  unfold saveToHistory
  rw [hflag]
  simp only [Bool.false_eq_true, if_false]
  have htake : s.history.take (s.historyIndex + 1) = s.history := by
    rw [hidx]; exact List.take_length s.history
  rw [htake]
  have hcond : (s.history ++ [nb]).length > MAX_HISTORY_SIZE := by
    simp only [List.length_append, List.length_singleton, MAX_HISTORY_SIZE]
    omega
  rw [if_pos hcond]
  have h1 : (s.history ++ [nb]).length - MAX_HISTORY_SIZE = 1 := by
    simp only [List.length_append, List.length_singleton, MAX_HISTORY_SIZE]
    omega
  rw [h1]
  have h2 : ((s.history ++ [nb]).drop 1).length - 1 = 99 := by
    simp only [List.length_drop, List.length_append, List.length_singleton]
    omega
  rw [h2]

/-! ### Evaluation lemmas: each operation's branches in closed form -/

theorem deleteBlock_short (s : St) (id : String)
    (h : s.blocks.length ≤ 1) : deleteBlock s id = s := by
  unfold deleteBlock
  rw [if_pos h]

theorem deleteBlock_absent (s : St) (id : String)
    (hf : findIndex (fun b => b.id == id) s.blocks = none) :
    deleteBlock s id = s := by
  unfold deleteBlock
  split
  · rfl
  · rw [hf]

theorem deleteBlock_eval_first (s : St) (id : String)
    (h2 : 2 ≤ s.blocks.length)
    (hf : findIndex (fun b => b.id == id) s.blocks = some 0) :
    deleteBlock s id =
      { saveToHistory s (s.blocks.filter fun b => !(b.id == id))
        with blocks := s.blocks.filter fun b => !(b.id == id) } := by
  unfold deleteBlock
  rw [if_neg (by omega), hf]

theorem deleteBlock_eval (s : St) (id : String) (i : Nat) (prev : Block)
    (h2 : 2 ≤ s.blocks.length)
    (hf : findIndex (fun b => b.id == id) s.blocks = some (i + 1))
    (hp : s.blocks[i]? = some prev) :
    deleteBlock s id =
      { saveToHistory
          { s with focusBlockId := some prev.id,
                   cursorPosition := prev.content.length }
          (s.blocks.filter fun b => !(b.id == id))
        with blocks := s.blocks.filter fun b => !(b.id == id) } := by
  unfold deleteBlock
  rw [if_neg (by omega), hf]
  simp only []
  have hp' : s.blocks[i + 1 - 1]? = some prev := by simpa using hp
  rw [hp']

theorem mergeWithPrevious_absent (s : St) (id : String)
    (hf : findIndex (fun b => b.id == id) s.blocks = none) :
    mergeWithPrevious s id = s := by
  unfold mergeWithPrevious
  rw [hf]

theorem mergeWithPrevious_first (s : St) (id : String)
    (hf : findIndex (fun b => b.id == id) s.blocks = some 0) :
    mergeWithPrevious s id = s := by
  unfold mergeWithPrevious
  rw [hf]

theorem mergeWithPrevious_eval (s : St) (id : String) (i : Nat)
    (prev cur : Block)
    (hf : findIndex (fun b => b.id == id) s.blocks = some (i + 1))
    (hp : s.blocks[i]? = some prev) (hc : s.blocks[i + 1]? = some cur) :
    mergeWithPrevious s id =
      { saveToHistory
          { s with cursorPosition := prev.content.length,
                   focusBlockId := some prev.id }
          ((s.blocks.set i { prev with content := prev.content ++ cur.content }).eraseIdx (i + 1))
        with blocks := ((s.blocks.set i { prev with content := prev.content ++ cur.content }).eraseIdx (i + 1)) } := by
  unfold mergeWithPrevious
  rw [hf]
  simp only []
  rw [hc, hp]

theorem addBlockAfter_eval_found (s : St) (afterId newId content : String)
    (i : Nat) (hf : findIndex (fun b => b.id == afterId) s.blocks = some i) :
    (addBlockAfter s afterId newId content).1 =
      { saveToHistory s (spliceInsert (mkB newId content) s.blocks (i + 1))
        with blocks := spliceInsert (mkB newId content) s.blocks (i + 1),
             focusBlockId := some newId,
             cursorPosition := 0 } := by
  unfold addBlockAfter
  rw [hf]
  rfl

theorem addBlockAfter_eval_none (s : St) (afterId newId content : String)
    (hf : findIndex (fun b => b.id == afterId) s.blocks = none) :
    (addBlockAfter s afterId newId content).1 =
      { saveToHistory s (s.blocks ++ [mkB newId content])
        with blocks := s.blocks ++ [mkB newId content],
             focusBlockId := some newId,
             cursorPosition := 0 } := by
  unfold addBlockAfter
  rw [hf]
  rfl

/-! ### Field-level descriptions of `saveToHistory` -/

theorem saveToHistory_congr (s₁ s₂ : St) (nb : List Block)
    (hh : s₁.history = s₂.history) (hi : s₁.historyIndex = s₂.historyIndex)
    (hf : s₁.isUndoRedo = s₂.isUndoRedo) :
    (saveToHistory s₁ nb).history = (saveToHistory s₂ nb).history ∧
    (saveToHistory s₁ nb).historyIndex = (saveToHistory s₂ nb).historyIndex ∧
    (saveToHistory s₁ nb).isUndoRedo = (saveToHistory s₂ nb).isUndoRedo := by
  unfold saveToHistory
  rw [hh, hi, hf]
  by_cases hb : s₂.isUndoRedo = true
  · rw [if_pos hb, if_pos hb]
    exact ⟨rfl, rfl, rfl⟩
  · rw [if_neg hb, if_neg hb]
    exact ⟨rfl, rfl, rfl⟩

theorem deleteBlock_eval_fields (s : St) (id : String) (i : Nat)
    (prev : Block) (h2 : 2 ≤ s.blocks.length)
    (hf : findIndex (fun b => b.id == id) s.blocks = some (i + 1))
    (hp : s.blocks[i]? = some prev) :
    (deleteBlock s id).blocks = s.blocks.filter (fun b => !(b.id == id)) ∧
    (deleteBlock s id).history =
      (saveToHistory s (s.blocks.filter fun b => !(b.id == id))).history ∧
    (deleteBlock s id).historyIndex =
      (saveToHistory s (s.blocks.filter fun b => !(b.id == id))).historyIndex ∧
    (deleteBlock s id).isUndoRedo =
      (saveToHistory s (s.blocks.filter fun b => !(b.id == id))).isUndoRedo := by
  rw [deleteBlock_eval s id i prev h2 hf hp]
  refine ⟨rfl, ?_, ?_, ?_⟩
  · exact (saveToHistory_congr
      { s with focusBlockId := some prev.id,
               cursorPosition := prev.content.length } s _ rfl rfl rfl).1
  · exact (saveToHistory_congr
      { s with focusBlockId := some prev.id,
               cursorPosition := prev.content.length } s _ rfl rfl rfl).2.1
  · exact (saveToHistory_congr
      { s with focusBlockId := some prev.id,
               cursorPosition := prev.content.length } s _ rfl rfl rfl).2.2

theorem mergeWithPrevious_eval_fields (s : St) (id : String) (i : Nat)
    (prev cur : Block)
    (hf : findIndex (fun b => b.id == id) s.blocks = some (i + 1))
    (hp : s.blocks[i]? = some prev) (hc : s.blocks[i + 1]? = some cur) :
    (mergeWithPrevious s id).blocks =
      (s.blocks.set i
        { prev with content := prev.content ++ cur.content }).eraseIdx (i + 1) ∧
    (mergeWithPrevious s id).history =
      (saveToHistory s ((s.blocks.set i
        { prev with content := prev.content ++ cur.content }).eraseIdx
          (i + 1))).history ∧
    (mergeWithPrevious s id).historyIndex =
      (saveToHistory s ((s.blocks.set i
        { prev with content := prev.content ++ cur.content }).eraseIdx
          (i + 1))).historyIndex ∧
    (mergeWithPrevious s id).isUndoRedo =
      (saveToHistory s ((s.blocks.set i
        { prev with content := prev.content ++ cur.content }).eraseIdx
          (i + 1))).isUndoRedo := by
  rw [mergeWithPrevious_eval s id i prev cur hf hp hc]
  refine ⟨rfl, ?_, ?_, ?_⟩
  · exact (saveToHistory_congr
      { s with cursorPosition := prev.content.length,
               focusBlockId := some prev.id } s _ rfl rfl rfl).1
  · exact (saveToHistory_congr
      { s with cursorPosition := prev.content.length,
               focusBlockId := some prev.id } s _ rfl rfl rfl).2.1
  · exact (saveToHistory_congr
      { s with cursorPosition := prev.content.length,
               focusBlockId := some prev.id } s _ rfl rfl rfl).2.2

theorem saveToHistory_normal_fields (s : St) (nb : List Block)
    (hflag : s.isUndoRedo = false)
    (hidx : s.historyIndex + 1 = s.history.length)
    (hlen : s.history.length ≤ 99) :
    (saveToHistory s nb).history = s.history ++ [nb] ∧
    (saveToHistory s nb).historyIndex = s.history.length ∧
    (saveToHistory s nb).isUndoRedo = false := by
  rw [saveToHistory_normal s nb hflag hidx hlen]
  exact ⟨rfl, rfl, hflag⟩

theorem saveToHistory_full_fields (s : St) (nb : List Block)
    (hflag : s.isUndoRedo = false)
    (hidx : s.historyIndex + 1 = s.history.length)
    (hlen : s.history.length = 100) :
    (saveToHistory s nb).history = (s.history ++ [nb]).drop 1 ∧
    (saveToHistory s nb).historyIndex = 99 ∧
    (saveToHistory s nb).isUndoRedo = false := by
  rw [saveToHistory_full s nb hflag hidx hlen]
  exact ⟨rfl, rfl, hflag⟩

/-- Every document mutation either leaves the whole state unchanged
(its silent no-op branches) or sets the live blocks to some list `nb`
and gives the history fields of `saveToHistory s nb`. -/
theorem applyOp_mut_shape (s : St) (op : Op) (hm : op.isMut = true) :
    applyOp s op = s ∨
    ∃ nb, (applyOp s op).blocks = nb ∧
      (applyOp s op).history = (saveToHistory s nb).history ∧
      (applyOp s op).historyIndex = (saveToHistory s nb).historyIndex ∧
      (applyOp s op).isUndoRedo = (saveToHistory s nb).isUndoRedo := by
  cases op with
  | update id content => exact .inr ⟨_, rfl, rfl, rfl, rfl⟩
  | insert afterId newId content => exact .inr ⟨_, rfl, rfl, rfl, rfl⟩
  | delete id =>
    rcases Nat.lt_or_ge s.blocks.length 2 with h2 | h2
    · exact .inl (deleteBlock_short s id (by omega))
    · rcases hf : findIndex (fun b => b.id == id) s.blocks with _ | (_ | j)
      · exact .inl (deleteBlock_absent s id hf)
      · right
        rw [show applyOp s (.delete id) = deleteBlock s id from rfl,
          deleteBlock_eval_first s id h2 hf]
        exact ⟨_, rfl, rfl, rfl, rfl⟩
      · have hj : j < s.blocks.length := by
          have := findIndex_lt_length hf; omega
        obtain ⟨f1, f2, f3, f4⟩ := deleteBlock_eval_fields s id j
          (s.blocks[j]) h2 hf (List.getElem?_eq_getElem hj)
        exact .inr ⟨_, f1, f2, f3, f4⟩
  | merge id =>
    rcases hf : findIndex (fun b => b.id == id) s.blocks with _ | (_ | j)
    · exact .inl (mergeWithPrevious_absent s id hf)
    · exact .inl (mergeWithPrevious_first s id hf)
    · have hj : j + 1 < s.blocks.length := findIndex_lt_length hf
      have hj0 : j < s.blocks.length := by omega
      obtain ⟨f1, f2, f3, f4⟩ := mergeWithPrevious_eval_fields s id j
        (s.blocks[j]) (s.blocks[j + 1]) hf
        (List.getElem?_eq_getElem hj0) (List.getElem?_eq_getElem hj)
      exact .inr ⟨_, f1, f2, f3, f4⟩
  | undoOp => simp [Op.isMut] at hm
  | redoOp => simp [Op.isMut] at hm

/-! ### The canonical-run invariant used for the undo/redo round trip -/


theorem reach_step (blocks0 : List Block) (k : Nat) (s : St) (op : Op)
    (hR : Reach blocks0 k s) (hk : k ≤ 98) (hm : op.isMut = true) :
    Reach blocks0 (k + 1) (applyOp s op) := by
  obtain ⟨hflag, hidx, hbound, hhead, hget⟩ := hR
  rcases applyOp_mut_shape s op hm with heq | ⟨nb, hb, hh, hi, hf⟩
  · rw [heq]; exact ⟨hflag, hidx, by omega, hhead, hget⟩
  · obtain ⟨s1, s2, s3⟩ := saveToHistory_normal_fields s nb hflag hidx (by omega)
    rw [s1] at hh; rw [s2] at hi; rw [s3] at hf
    have hne : s.history ≠ [] := by
      intro hcon; rw [hcon] at hidx; simp at hidx
    refine ⟨hf, ?_, ?_, ?_, ?_⟩
    · rw [hi, hh]; simp
    · rw [hh]; simp only [List.length_append, List.length_singleton]; omega
    · rw [hh, head?_append_left _ _ hne]; exact hhead
    · rw [hh, hi, hb]; exact List.getElem?_concat_length _ _

theorem reach_mono (blocks0 : List Block) (k k' : Nat) (s : St)
    (h : Reach blocks0 k s) (hk : k ≤ k') : Reach blocks0 k' s :=
  ⟨h.1, h.2.1, by have := h.2.2.1; omega, h.2.2.2.1, h.2.2.2.2⟩

theorem applyOps_reach (blocks0 : List Block) :
    ∀ (ops : List Op) (s : St) (k : Nat), Reach blocks0 k s →
      (∀ op ∈ ops, op.isMut = true) → k + ops.length ≤ 99 →
      Reach blocks0 (k + ops.length) (applyOps s ops) := by
  intro ops
  induction ops with
  | nil => intro s k hR _ _; simpa [applyOps] using hR
  | cons op rest ih =>
    intro s k hR hmut hle
    have hlen : (op :: rest).length = rest.length + 1 := by simp
    have h1 : Reach blocks0 (k + 1) (applyOp s op) :=
      reach_step blocks0 k s op hR (by rw [hlen] at hle; omega)
        (hmut op (by simp))
    have h2 := ih (applyOp s op) (k + 1) h1
      (fun o ho => hmut o (by simp [ho])) (by rw [hlen] at hle; omega)
    have : applyOps s (op :: rest) = applyOps (applyOp s op) rest := rfl
    rw [this, hlen]
    exact reach_mono blocks0 (k + 1 + rest.length) (k + (rest.length + 1)) _
      h2 (by omega)

/-! ### What `undo` and `redo` iterates do to the cursor and document -/

theorem undoN_spec : ∀ (m : Nat) (s : St),
    s.history[s.historyIndex]? = some s.blocks →
    (undoN m s).history = s.history ∧
    (undoN m s).historyIndex = s.historyIndex - m ∧
    (undoN m s).history[(undoN m s).historyIndex]? =
      some (undoN m s).blocks := by
  intro m
  induction m with
  | zero => intro s h; exact ⟨rfl, (Nat.sub_zero _).symm, h⟩
  | succ n ih =>
    intro s h
    have hlt : s.historyIndex < s.history.length := getElem?_some_lt h
    have hstep : undoN (n + 1) s = undoN n (undo s) := rfl
    by_cases h0 : 0 < s.historyIndex
    · obtain ⟨e, he⟩ : ∃ e, s.history[s.historyIndex - 1]? = some e := by
        have hlt1 : s.historyIndex - 1 < s.history.length := by omega
        exact ⟨s.history[s.historyIndex - 1], List.getElem?_eq_getElem hlt1⟩
      have hundo : undo s =
          { s with isUndoRedo := true,
                   historyIndex := s.historyIndex - 1,
                   blocks := e } := by
        unfold undo
        rw [if_pos h0]
        simp only [he, Option.getD_some]
      have hh : (undo s).history = s.history := by rw [hundo]
      have hi : (undo s).historyIndex = s.historyIndex - 1 := by rw [hundo]
      obtain ⟨ih1, ih2, ih3⟩ := ih (undo s)
        (by rw [hundo]; exact he)
      rw [hstep]
      refine ⟨?_, ?_, ?_⟩
      · rw [ih1, hh]
      · rw [ih2, hi]; omega
      · exact ih3
    · have hundo : undo s = s := by unfold undo; rw [if_neg h0]
      obtain ⟨ih1, ih2, ih3⟩ := ih s h
      rw [hstep, hundo]
      refine ⟨ih1, ?_, ih3⟩
      rw [ih2]; omega

theorem redoN_spec : ∀ (m : Nat) (s : St),
    s.history[s.historyIndex]? = some s.blocks →
    (redoN m s).history = s.history ∧
    (redoN m s).historyIndex =
      min (s.historyIndex + m) (s.history.length - 1) ∧
    (redoN m s).history[(redoN m s).historyIndex]? =
      some (redoN m s).blocks := by
  intro m
  induction m with
  | zero =>
    intro s h
    have hlt : s.historyIndex < s.history.length := getElem?_some_lt h
    refine ⟨rfl, ?_, h⟩
    show s.historyIndex = min (s.historyIndex + 0) (s.history.length - 1)
    omega
  | succ n ih =>
    intro s h
    have hlt : s.historyIndex < s.history.length := getElem?_some_lt h
    have hstep : redoN (n + 1) s = redoN n (redo s) := rfl
    by_cases h0 : s.historyIndex < s.history.length - 1
    · obtain ⟨e, he⟩ : ∃ e, s.history[s.historyIndex + 1]? = some e := by
        have hlt1 : s.historyIndex + 1 < s.history.length := by omega
        exact ⟨s.history[s.historyIndex + 1], List.getElem?_eq_getElem hlt1⟩
      have hredo : redo s =
          { s with isUndoRedo := true,
                   historyIndex := s.historyIndex + 1,
                   blocks := e } := by
        unfold redo
        rw [if_pos h0]
        simp only [he, Option.getD_some]
      have hh : (redo s).history = s.history := by rw [hredo]
      have hi : (redo s).historyIndex = s.historyIndex + 1 := by rw [hredo]
      obtain ⟨ih1, ih2, ih3⟩ := ih (redo s) (by rw [hredo]; exact he)
      rw [hstep]
      refine ⟨?_, ?_, ?_⟩
      · rw [ih1, hh]
      · rw [ih2, hi, hh]; omega
      · exact ih3
    · have hredo : redo s = s := by unfold redo; rw [if_neg h0]
      obtain ⟨ih1, ih2, ih3⟩ := ih s h
      rw [hstep, hredo]
      refine ⟨ih1, ?_, ih3⟩
      rw [ih2]; omega

/-- Claim C3: starting from any initial document with no replay flag
pending, after any sequence of `N ≤ 99` mutations (below the history
capacity), undoing `N` times restores the initial document exactly
(contents and order), and then redoing `N` times restores the final
document exactly. -/
theorem undo_redo_round_trip (blocks0 : List Block) (ops : List Op)
    (hmut : ∀ op ∈ ops, op.isMut = true)
    (hlen : ops.length ≤ 99) :
    (undoN ops.length (applyOps (initState blocks0) ops)).blocks = blocks0 ∧
    (redoN ops.length
        (undoN ops.length (applyOps (initState blocks0) ops))).blocks =
      (applyOps (initState blocks0) ops).blocks := by
  have h0 : Reach blocks0 0 (initState blocks0) :=
    ⟨rfl, rfl, Nat.le_refl 1, rfl, rfl⟩
  have hR := applyOps_reach blocks0 ops (initState blocks0) 0 h0 hmut
    (by omega)
  obtain ⟨hflag, hidx, hbound, hhead, hget⟩ := hR
  obtain ⟨hu1, hu2, hu3⟩ :=
    undoN_spec ops.length (applyOps (initState blocks0) ops) hget
  have hidx0 : (undoN ops.length (applyOps (initState blocks0) ops)).historyIndex
      = 0 := by
    rw [hu2]; omega
  have hzero : (applyOps (initState blocks0) ops).history[0]? = some blocks0 := by
    rw [← List.head?_eq_getElem?]; exact hhead
  have hfirst : (undoN ops.length (applyOps (initState blocks0) ops)).blocks
      = blocks0 := by
    rw [hu1, hidx0, hzero] at hu3
    exact (Option.some_injective _ hu3).symm
  refine ⟨hfirst, ?_⟩
  obtain ⟨hr1, hr2, hr3⟩ :=
    redoN_spec ops.length (undoN ops.length (applyOps (initState blocks0) ops))
      hu3
  have hlen1 : 1 ≤ (applyOps (initState blocks0) ops).history.length := by
    omega
  have hidxF : (redoN ops.length
      (undoN ops.length (applyOps (initState blocks0) ops))).historyIndex =
      (applyOps (initState blocks0) ops).historyIndex := by
    rw [hr2, hidx0, hu1]; omega
  rw [hr1, hu1, hidxF, hget] at hr3
  exact (Option.some_injective _ hr3).symm

/-- Witness for C3: a concrete four-mutation run (update, insert,
delete, merge) round-trips through four undos and four redos. -/
theorem undo_redo_round_trip_witness :
    (undoN 4 (applyOps (initState [mkB "a" "x"])
      [.update "a" "y", .insert "a" "n1" "w", .delete "n1",
       .merge "n1"])).blocks = [mkB "a" "x"] ∧
    (redoN 4 (undoN 4 (applyOps (initState [mkB "a" "x"])
      [.update "a" "y", .insert "a" "n1" "w", .delete "n1",
       .merge "n1"]))).blocks =
      (applyOps (initState [mkB "a" "x"])
        [.update "a" "y", .insert "a" "n1" "w", .delete "n1",
         .merge "n1"]).blocks :=
  undo_redo_round_trip [mkB "a" "x"]
    [.update "a" "y", .insert "a" "n1" "w", .delete "n1", .merge "n1"]
    (by decide) (by decide)

/-! ### The bounded-capacity invariant -/


theorem cap_step (s : St) (op : Op) (hC : Cap s) (hm : op.isMut = true) :
    Cap (applyOp s op) := by
  obtain ⟨hflag, hidx, hlen, hget⟩ := hC
  rcases applyOp_mut_shape s op hm with heq | ⟨nb, hb, hh, hi, hf⟩
  · rw [heq]; exact ⟨hflag, hidx, hlen, hget⟩
  · rcases Nat.lt_or_ge s.history.length 100 with hc | hc
    · obtain ⟨s1, s2, s3⟩ := saveToHistory_normal_fields s nb hflag hidx
        (by omega)
      rw [s1] at hh; rw [s2] at hi; rw [s3] at hf
      refine ⟨hf, ?_, ?_, ?_⟩
      · rw [hi, hh]; simp
      · rw [hh]; simp only [List.length_append, List.length_singleton]; omega
      · rw [hh, hi, hb]; exact List.getElem?_concat_length _ _
    · have h100 : s.history.length = 100 := by omega
      obtain ⟨s1, s2, s3⟩ := saveToHistory_full_fields s nb hflag hidx h100
      rw [s1] at hh; rw [s2] at hi; rw [s3] at hf
      refine ⟨hf, ?_, ?_, ?_⟩
      · rw [hi, hh]
        simp only [List.length_drop, List.length_append, List.length_singleton]
        omega
      · rw [hh]
        simp only [List.length_drop, List.length_append, List.length_singleton]
        omega
      · rw [hh, hi, hb, List.getElem?_drop]
        have h99 : 1 + 99 = s.history.length := by omega
        rw [h99]
        exact List.getElem?_concat_length _ _

theorem applyOps_cap : ∀ (ops : List Op) (s : St), Cap s →
    (∀ op ∈ ops, op.isMut = true) → Cap (applyOps s ops) := by
  intro ops
  induction ops with
  | nil => intro s h _; exact h
  | cons op rest ih =>
    intro s h hmut
    exact ih (applyOp s op) (cap_step s op h (hmut op (by simp)))
      (fun o ho => hmut o (by simp [ho]))

/-- Claim C5: after 150 mutations from any initial document, the
history log holds at most 100 entries, the cursor points at a valid
entry (also after every prefix of the run), the cursor is at most 99,
and 99 undos exhaust the log (`canUndo` becomes false), so undo can
reach back at most 99 steps. -/
theorem history_bound (blocks0 : List Block) (ops : List Op)
    (hmut : ∀ op ∈ ops, op.isMut = true)
    (_hlen : ops.length = 150) :
    (applyOps (initState blocks0) ops).history.length ≤ 100 ∧
    (applyOps (initState blocks0) ops).historyIndex <
      (applyOps (initState blocks0) ops).history.length ∧
    (applyOps (initState blocks0) ops).historyIndex ≤ 99 ∧
    canUndo (undoN 99 (applyOps (initState blocks0) ops)) = false ∧
    (∀ pre suf, ops = pre ++ suf →
      (applyOps (initState blocks0) pre).historyIndex <
        (applyOps (initState blocks0) pre).history.length) := by
  have hcap0 : Cap (initState blocks0) := ⟨rfl, rfl, by simp [initState], rfl⟩
  have hcap := applyOps_cap ops (initState blocks0) hcap0 hmut
  obtain ⟨hflag, hidx, hlen100, hget⟩ := hcap
  obtain ⟨hu1, hu2, hu3⟩ := undoN_spec 99 _ hget
  refine ⟨hlen100, by omega, by omega, ?_, ?_⟩
  · have hz : (undoN 99 (applyOps (initState blocks0) ops)).historyIndex = 0 := by
      rw [hu2]; omega
    simp [canUndo, hz]
  · intro pre suf hps
    have hcapPre := applyOps_cap pre (initState blocks0) hcap0
      (fun o ho => hmut o (by rw [hps]; exact List.mem_append.mpr (.inl ho)))
    obtain ⟨_, hidxp, _, _⟩ := hcapPre
    omega

set_option maxRecDepth 40000 in
/-- Witness for C5: 150 updates on a one-block document. -/
theorem history_bound_witness :
    (applyOps (initState [mkB "a" "x"])
      (List.replicate 150 (Op.update "a" "y"))).history.length ≤ 100 ∧
    (applyOps (initState [mkB "a" "x"])
      (List.replicate 150 (Op.update "a" "y"))).historyIndex <
      (applyOps (initState [mkB "a" "x"])
        (List.replicate 150 (Op.update "a" "y"))).history.length ∧
    (applyOps (initState [mkB "a" "x"])
      (List.replicate 150 (Op.update "a" "y"))).historyIndex ≤ 99 ∧
    canUndo (undoN 99 (applyOps (initState [mkB "a" "x"])
      (List.replicate 150 (Op.update "a" "y")))) = false := by
  have h := history_bound [mkB "a" "x"] (List.replicate 150 (Op.update "a" "y"))
    (fun op hop => by rw [List.eq_of_mem_replicate hop]; rfl)
    (by simp)
  exact ⟨h.1, h.2.1, h.2.2.1, h.2.2.2.1⟩

/-! ### The at-least-one-block invariant -/


theorem saveToHistory_eq (s : St) (nb : List Block) :
    saveToHistory s nb =
      if s.isUndoRedo then { s with isUndoRedo := false }
      else { s with history := pushTrim s.history s.historyIndex nb,
                    historyIndex :=
                      (pushTrim s.history s.historyIndex nb).length - 1 } := by
  unfold saveToHistory pushTrim
  rfl

theorem pushTrim_length_pos (h : List (List Block)) (idx : Nat)
    (nb : List Block) : 0 < (pushTrim h idx nb).length := by
  unfold pushTrim
  split
  · simp only [List.length_drop, List.length_append, List.length_singleton,
      MAX_HISTORY_SIZE] at *
    omega
  · simp only [List.length_append, List.length_singleton]
    omega

theorem pushTrim_subset (h : List (List Block)) (idx : Nat) (nb : List Block) :
    ∀ e ∈ pushTrim h idx nb, e ∈ h ∨ e = nb := by
  intro e he
  unfold pushTrim at he
  have hmem : e ∈ h.take (idx + 1) ++ [nb] := by
    split at he
    · exact List.mem_of_mem_drop he
    · exact he
  rcases List.mem_append.mp hmem with hm | hm
  · exact .inl (List.take_subset _ _ hm)
  · exact .inr (by simpa using hm)

theorem saveToHistory_history_subset (s : St) (nb : List Block) :
    ∀ e ∈ (saveToHistory s nb).history, e ∈ s.history ∨ e = nb := by
  rw [saveToHistory_eq]
  by_cases hb : s.isUndoRedo = true
  · rw [if_pos hb]; intro e he; exact .inl he
  · rw [if_neg hb]; intro e he
    exact pushTrim_subset s.history s.historyIndex nb e he

theorem saveToHistory_index_valid (s : St) (nb : List Block)
    (h : s.historyIndex < s.history.length) :
    (saveToHistory s nb).historyIndex < (saveToHistory s nb).history.length := by
  rw [saveToHistory_eq]
  by_cases hb : s.isUndoRedo = true
  · rw [if_pos hb]; exact h
  · rw [if_neg hb]
    have := pushTrim_length_pos s.history s.historyIndex nb
    show (pushTrim s.history s.historyIndex nb).length - 1 <
      (pushTrim s.history s.historyIndex nb).length
    omega


theorem goodDoc_update (l : List Block) (id c : String) (h : GoodDoc l) :
    GoodDoc (l.map fun b =>
      if b.id == id then { b with content := c } else b) := by
  constructor
  · intro hc
    exact h.1 (List.map_eq_nil_iff.mp hc)
  · have hids : (l.map fun b =>
        if b.id == id then { b with content := c } else b).map Block.id =
        l.map Block.id := by
      rw [List.map_map]
      apply List.map_congr_left
      intro b _
      by_cases hb : b.id = id <;> simp [hb]
    rw [hids]
    exact h.2

theorem goodDoc_insert_append (l : List Block) (nb : Block) (h : GoodDoc l)
    (hfresh : nb.id ∉ l.map Block.id) : GoodDoc (l ++ [nb]) := by
  constructor
  · simp
  · rw [List.map_append]
    rw [List.nodup_append]
    refine ⟨h.2, by simp, ?_⟩
    intro x hx hx1
    simp only [List.map_cons, List.map_nil, List.mem_singleton] at hx1
    rw [hx1] at hx
    exact hfresh hx

theorem goodDoc_insert_splice (l : List Block) (nb : Block) (n : Nat)
    (hn : n ≤ l.length) (h : GoodDoc l)
    (hfresh : nb.id ∉ l.map Block.id) : GoodDoc (spliceInsert nb l n) := by
  rw [spliceInsert_eq_take_drop nb l n hn]
  constructor
  · simp
  · rw [List.map_append, List.map_cons, List.nodup_middle, List.nodup_cons,
      ← List.map_append, List.take_append_drop]
    exact ⟨hfresh, h.2⟩

theorem goodDoc_delete (l : List Block) (id : String) (h : GoodDoc l)
    (h2 : 2 ≤ l.length) :
    GoodDoc (l.filter fun b => !(b.id == id)) := by
  constructor
  · have hlt0 : 0 < l.length := by omega
    have hlt1 : 1 < l.length := by omega
    have hne : (l[0]).id ≠ (l[1]).id := by
      intro hcon
      have hml0 : 0 < (l.map Block.id).length := by simpa using hlt0
      have hml1 : 1 < (l.map Block.id).length := by simpa using hlt1
      have hm0 : (l.map Block.id)[0] = (l[0]).id := List.getElem_map Block.id
      have hm1 : (l.map Block.id)[1] = (l[1]).id := List.getElem_map Block.id
      have h01 : (l.map Block.id)[0] = (l.map Block.id)[1] := by
        rw [hm0, hm1, hcon]
      have := (h.2.getElem_inj_iff).mp h01
      omega
    by_cases hc : (l[0]).id = id
    · have hne1 : ((l[1]).id == id) = false := by
        rw [beq_eq_false_iff_ne]
        intro hcon
        exact hne (by rw [hc, hcon])
      apply List.ne_nil_of_mem
      exact List.mem_filter.mpr ⟨List.getElem_mem hlt1, by simp [hne1]⟩
    · have hne0 : ((l[0]).id == id) = false := by
        rw [beq_eq_false_iff_ne]; exact hc
      apply List.ne_nil_of_mem
      exact List.mem_filter.mpr ⟨List.getElem_mem hlt0, by simp [hne0]⟩
  · exact List.Nodup.sublist
      (List.Sublist.map Block.id (List.filter_sublist l)) h.2

theorem goodDoc_merge (l : List Block) (i : Nat) (prev cur : Block)
    (hp : l[i]? = some prev) (hc : l[i + 1]? = some cur) (h : GoodDoc l) :
    GoodDoc ((l.set i
      { prev with content := prev.content ++ cur.content }).eraseIdx (i + 1)) := by
  have hlt : i + 1 < l.length := getElem?_some_lt hc
  have hlt0 : i < l.length := by omega
  rw [set_eraseIdx_succ _ l i hlt]
  have hgp : l[i] = prev := by
    have := List.getElem?_eq_getElem hlt0
    rw [hp] at this
    exact Option.some_injective _ this.symm
  have hgc : l[i + 1] = cur := by
    have := List.getElem?_eq_getElem hlt
    rw [hc] at this
    exact Option.some_injective _ this.symm
  have hdecomp : l = l.take i ++ prev :: cur :: l.drop (i + 2) := by
    have h1 : l.drop i = prev :: l.drop (i + 1) := by
      rw [List.drop_eq_getElem_cons hlt0, hgp]
    have h2 : l.drop (i + 1) = cur :: l.drop (i + 2) := by
      rw [List.drop_eq_getElem_cons hlt, hgc]
    calc l = l.take i ++ l.drop i := (List.take_append_drop i l).symm
      _ = l.take i ++ prev :: cur :: l.drop (i + 2) := by rw [h1, h2]
  constructor
  · simp
  · have hsub : ((l.take i ++
        { prev with content := prev.content ++ cur.content } ::
          l.drop (i + 2)).map Block.id).Sublist (l.map Block.id) := by
      conv_rhs => rw [hdecomp]
      rw [List.map_append, List.map_cons, List.map_append, List.map_cons,
        List.map_cons]
      apply List.Sublist.append_left
      show (prev.id :: (l.drop (i + 2)).map Block.id).Sublist
        (prev.id :: cur.id :: (l.drop (i + 2)).map Block.id)
      exact List.Sublist.cons₂ _ (List.sublist_cons_self _ _)
    exact List.Nodup.sublist hsub h.2

/-- Blocks-level preservation: each operation keeps the live document
well-formed (insert needs its generated id fresh). -/
theorem good_blocks_step (s : St) (op : Op) (hG : GoodState s)
    (hok : opOkB s op = true) : GoodDoc (applyOp s op).blocks := by
  cases op with
  | update id c => exact goodDoc_update s.blocks id c hG.1
  | insert a n c =>
    have hfresh : (mkB n c).id ∉ s.blocks.map Block.id := by
      simp only [opOkB, List.all_eq_true] at hok
      intro hmem
      obtain ⟨b, hb, hid⟩ := List.mem_map.mp hmem
      have := hok b hb
      rw [hid] at this
      simp [mkB] at this
    rcases hf : findIndex (fun b => b.id == a) s.blocks with _ | i
    · rw [show (applyOp s (.insert a n c)).blocks =
          ((addBlockAfter s a n c).1).blocks from rfl,
        addBlockAfter_eval_none s a n c hf]
      exact goodDoc_insert_append s.blocks (mkB n c) hG.1 hfresh
    · rw [show (applyOp s (.insert a n c)).blocks =
          ((addBlockAfter s a n c).1).blocks from rfl,
        addBlockAfter_eval_found s a n c i hf]
      exact goodDoc_insert_splice s.blocks (mkB n c) (i + 1)
        (findIndex_lt_length hf) hG.1 hfresh
  | delete id =>
    rcases Nat.lt_or_ge s.blocks.length 2 with h2 | h2
    · rw [show applyOp s (.delete id) = deleteBlock s id from rfl,
        deleteBlock_short s id (by omega)]
      exact hG.1
    · rcases hf : findIndex (fun b => b.id == id) s.blocks with _ | (_ | j)
      · rw [show applyOp s (.delete id) = deleteBlock s id from rfl,
          deleteBlock_absent s id hf]
        exact hG.1
      · rw [show applyOp s (.delete id) = deleteBlock s id from rfl,
          deleteBlock_eval_first s id h2 hf]
        exact goodDoc_delete s.blocks id hG.1 h2
      · have hj : j < s.blocks.length := by
          have := findIndex_lt_length hf; omega
        obtain ⟨f1, _, _, _⟩ := deleteBlock_eval_fields s id j (s.blocks[j])
          h2 hf (List.getElem?_eq_getElem hj)
        rw [show (applyOp s (.delete id)).blocks = (deleteBlock s id).blocks
          from rfl, f1]
        exact goodDoc_delete s.blocks id hG.1 h2
  | merge id =>
    rcases hf : findIndex (fun b => b.id == id) s.blocks with _ | (_ | j)
    · rw [show applyOp s (.merge id) = mergeWithPrevious s id from rfl,
        mergeWithPrevious_absent s id hf]
      exact hG.1
    · rw [show applyOp s (.merge id) = mergeWithPrevious s id from rfl,
        mergeWithPrevious_first s id hf]
      exact hG.1
    · have hj : j + 1 < s.blocks.length := findIndex_lt_length hf
      have hj0 : j < s.blocks.length := by omega
      obtain ⟨f1, _, _, _⟩ := mergeWithPrevious_eval_fields s id j
        (s.blocks[j]) (s.blocks[j + 1]) hf
        (List.getElem?_eq_getElem hj0) (List.getElem?_eq_getElem hj)
      rw [show (applyOp s (.merge id)).blocks = (mergeWithPrevious s id).blocks
        from rfl, f1]
      exact goodDoc_merge s.blocks j (s.blocks[j]) (s.blocks[j + 1])
        (List.getElem?_eq_getElem hj0) (List.getElem?_eq_getElem hj) hG.1
  | undoOp =>
    by_cases h0 : 0 < s.historyIndex
    · obtain ⟨e, he⟩ : ∃ e, s.history[s.historyIndex - 1]? = some e := by
        have hlt1 : s.historyIndex - 1 < s.history.length := by
          have := hG.2.2; omega
        exact ⟨s.history[s.historyIndex - 1], List.getElem?_eq_getElem hlt1⟩
      have hundo : undo s =
          { s with isUndoRedo := true,
                   historyIndex := s.historyIndex - 1,
                   blocks := e } := by
        unfold undo
        rw [if_pos h0]
        simp only [he, Option.getD_some]
      rw [show (applyOp s .undoOp).blocks = (undo s).blocks from rfl, hundo]
      exact hG.2.1 e (List.getElem?_mem he)
    · have hundo : undo s = s := by unfold undo; rw [if_neg h0]
      rw [show (applyOp s .undoOp).blocks = (undo s).blocks from rfl, hundo]
      exact hG.1
  | redoOp =>
    by_cases h0 : s.historyIndex < s.history.length - 1
    · obtain ⟨e, he⟩ : ∃ e, s.history[s.historyIndex + 1]? = some e := by
        have hlt1 : s.historyIndex + 1 < s.history.length := by
          have := hG.2.2; omega
        exact ⟨s.history[s.historyIndex + 1], List.getElem?_eq_getElem hlt1⟩
      have hredo : redo s =
          { s with isUndoRedo := true,
                   historyIndex := s.historyIndex + 1,
                   blocks := e } := by
        unfold redo
        rw [if_pos h0]
        simp only [he, Option.getD_some]
      rw [show (applyOp s .redoOp).blocks = (redo s).blocks from rfl, hredo]
      exact hG.2.1 e (List.getElem?_mem he)
    · have hredo : redo s = s := by unfold redo; rw [if_neg h0]
      rw [show (applyOp s .redoOp).blocks = (redo s).blocks from rfl, hredo]
      exact hG.1

/-- Full preservation of the well-formedness invariant by every
operation. -/
theorem good_step (s : St) (op : Op) (hG : GoodState s)
    (hok : opOkB s op = true) : GoodState (applyOp s op) := by
  have hblocks := good_blocks_step s op hG hok
  cases hm : op.isMut with
  | true =>
    rcases applyOp_mut_shape s op hm with heq | ⟨nb, hb, hh, hi, hf⟩
    · rw [heq]; rw [heq] at hblocks; exact ⟨hblocks, hG.2.1, hG.2.2⟩
    · refine ⟨hblocks, ?_, ?_⟩
      · intro e he
        rw [hh] at he
        rcases saveToHistory_history_subset s nb e he with hin | hnew
        · exact hG.2.1 e hin
        · rw [hnew, ← hb]; exact hblocks
      · rw [hh, hi]; exact saveToHistory_index_valid s nb hG.2.2
  | false =>
    cases op with
    | undoOp =>
      by_cases h0 : 0 < s.historyIndex
      · obtain ⟨e, he⟩ : ∃ e, s.history[s.historyIndex - 1]? = some e := by
          have hlt1 : s.historyIndex - 1 < s.history.length := by
            have := hG.2.2; omega
          exact ⟨s.history[s.historyIndex - 1], List.getElem?_eq_getElem hlt1⟩
        have hundo : undo s =
            { s with isUndoRedo := true,
                     historyIndex := s.historyIndex - 1,
                     blocks := e } := by
          unfold undo
          rw [if_pos h0]
          simp only [he, Option.getD_some]
        rw [show applyOp s .undoOp = undo s from rfl, hundo]
        exact ⟨hG.2.1 e (List.getElem?_mem he), hG.2.1,
          show s.historyIndex - 1 < s.history.length by
            have := hG.2.2; omega⟩
      · have hundo : undo s = s := by unfold undo; rw [if_neg h0]
        rw [show applyOp s .undoOp = undo s from rfl, hundo]
        exact hG
    | redoOp =>
      by_cases h0 : s.historyIndex < s.history.length - 1
      · obtain ⟨e, he⟩ : ∃ e, s.history[s.historyIndex + 1]? = some e := by
          have hlt1 : s.historyIndex + 1 < s.history.length := by
            have := hG.2.2; omega
          exact ⟨s.history[s.historyIndex + 1], List.getElem?_eq_getElem hlt1⟩
        have hredo : redo s =
            { s with isUndoRedo := true,
                     historyIndex := s.historyIndex + 1,
                     blocks := e } := by
          unfold redo
          rw [if_pos h0]
          simp only [he, Option.getD_some]
        rw [show applyOp s .redoOp = redo s from rfl, hredo]
        exact ⟨hG.2.1 e (List.getElem?_mem he), hG.2.1,
          show s.historyIndex + 1 < s.history.length by
            have := hG.2.2; omega⟩
      · have hredo : redo s = s := by unfold redo; rw [if_neg h0]
        rw [show applyOp s .redoOp = redo s from rfl, hredo]
        exact hG
    | update id c => simp [Op.isMut] at hm
    | insert a n c => simp [Op.isMut] at hm
    | delete id => simp [Op.isMut] at hm
    | merge id => simp [Op.isMut] at hm

theorem applyOps_good : ∀ (ops : List Op) (s : St), GoodState s →
    okRunB s ops = true → GoodState (applyOps s ops) := by
  intro ops
  induction ops with
  | nil => intro s h _; exact h
  | cons op rest ih =>
    intro s h hok
    simp only [okRunB, Bool.and_eq_true] at hok
    exact ih (applyOp s op) (good_step s op h hok.1) hok.2

/-- Claim C4: a well-formed document is never emptied — deleting the
only remaining block is a no-op, merge-with-previous on the first block
is a no-op, and every run of operations (with fresh insert ids) keeps
the block count at least one. -/
theorem document_never_empty (s : St) (hG : GoodState s) :
    (∀ id, s.blocks.length = 1 → deleteBlock s id = s) ∧
    (∀ id b, s.blocks.head? = some b → b.id = id →
      mergeWithPrevious s id = s) ∧
    (∀ ops, okRunB s ops = true → 1 ≤ (applyOps s ops).blocks.length) := by
  refine ⟨?_, ?_, ?_⟩
  · intro id h1
    exact deleteBlock_short s id (by omega)
  · intro id b hh hid
    apply mergeWithPrevious_first
    cases hb : s.blocks with
    | nil => rw [hb] at hh; cases hh
    | cons c t =>
      rw [hb] at hh
      have hcb : c = b := by
        simp only [List.head?_cons, Option.some_inj] at hh
        exact hh
      have hc : (c.id == id) = true := by
        rw [hcb, hid]; simp
      simp [findIndex, hc]
  · intro ops hok
    have hne := (applyOps_good ops s hG hok).1.1
    have := List.length_pos.mpr hne
    omega

/-- Witness for C4 on a one-block document: guarded delete, guarded
merge, and a run of inserts, deletes and an undo keep the document
nonempty. -/
theorem document_never_empty_witness :
    deleteBlock (initState [mkB "only" "t"]) "only" =
      initState [mkB "only" "t"] ∧
    mergeWithPrevious (initState [mkB "only" "t"]) "only" =
      initState [mkB "only" "t"] ∧
    1 ≤ (applyOps (initState [mkB "only" "t"])
      [.insert "only" "c" "z", .delete "only", .delete "c",
       .undoOp]).blocks.length := by
  have h := document_never_empty (initState [mkB "only" "t"]) (by decide)
  exact ⟨h.1 "only" (by decide),
    h.2.1 "only" (mkB "only" "t") (by decide) rfl,
    h.2.2 _ (by decide)⟩

/-! ### Recording runs (for the multi-block rewrite reconciliation) -/


/-- `updateBlock` never changes the id sequence. -/
theorem update_ids (l : List Block) (id c : String) :
    (l.map fun b =>
      if b.id == id then { b with content := c } else b).map Block.id =
      l.map Block.id := by
  rw [List.map_map]
  apply List.map_congr_left
  intro b _
  by_cases hb : b.id = id <;> simp [hb]

/-- With distinct ids, deleting an existing id removes exactly one
block. -/
theorem filter_length_nodup (d : String) :
    ∀ (l : List Block), (l.map Block.id).Nodup → d ∈ l.map Block.id →
      (l.filter fun b => !(b.id == d)).length + 1 = l.length := by
  intro l
  induction l with
  | nil => intro _ hmem; simp at hmem
  | cons b t ih =>
    intro hnd hmem
    rw [List.map_cons, List.nodup_cons] at hnd
    rw [List.map_cons] at hmem
    by_cases hb : b.id = d
    · have ht : ∀ x ∈ t, (!(x.id == d)) = true := by
        intro x hx
        have hxd : x.id ≠ d := by
          intro hc
          exact hnd.1 (by rw [hb, ← hc]; exact List.mem_map_of_mem Block.id hx)
        simp [hxd]
      have hbd : (!(b.id == d)) = false := by simp [hb]
      rw [List.filter_cons, hbd]
      simp only [Bool.false_eq_true, if_false]
      rw [List.filter_eq_self.mpr ht]
      simp
    · have hbd : (!(b.id == d)) = true := by simp [hb]
      rw [List.filter_cons, hbd, if_pos rfl]
      have hmem2 : d ∈ t.map Block.id := by
        rcases List.mem_cons.mp hmem with hcon | hm
        · exact absurd hcon.symm hb
        · exact hm
      have := ih hnd.2 hmem2
      simp only [List.length_cons]
      omega

theorem filter_ids_mem (l : List Block) (d x : String) :
    x ∈ (l.filter fun b => !(b.id == d)).map Block.id ↔
      (x ∈ l.map Block.id ∧ x ≠ d) := by
  constructor
  · intro hx
    obtain ⟨b, hb, rfl⟩ := List.mem_map.mp hx
    obtain ⟨hbl, hbd⟩ := List.mem_filter.mp hb
    exact ⟨List.mem_map_of_mem Block.id hbl, by simpa using hbd⟩
  · rintro ⟨hx1, hx2⟩
    obtain ⟨b, hbl, rfl⟩ := List.mem_map.mp hx1
    exact List.mem_map_of_mem Block.id
      (List.mem_filter.mpr ⟨hbl, by simpa using hx2⟩)

theorem nodup_subset_length (ds l : List String)
    (hnd : ds.Nodup) (hsub : ∀ d ∈ ds, d ∈ l) : ds.length ≤ l.length := by
  calc ds.length = ds.toFinset.card := (List.toFinset_card_of_nodup hnd).symm
    _ ≤ l.toFinset.card := Finset.card_le_card (fun x hx =>
        List.mem_toFinset.mpr (hsub x (List.mem_toFinset.mp hx)))
    _ ≤ l.length := List.toFinset_card_le l

/-- A recording `saveToHistoryAt` with room left: truncate at the
captured index, push, no trim, and queue the new last index. -/
theorem saveToHistoryAt_normal (idx0 : Nat) (s : St) (nb : List Block)
    (hflag : s.isUndoRedo = false)
    (htk : (s.history.take (idx0 + 1)).length ≤ 99) :
    saveToHistoryAt idx0 s nb =
      ({ s with history := s.history.take (idx0 + 1) ++ [nb] },
       some (s.history.take (idx0 + 1)).length) := by
  unfold saveToHistoryAt
  rw [hflag]
  simp only [Bool.false_eq_true, if_false]
  have hcond : ¬ ((s.history.take (idx0 + 1) ++ [nb]).length >
      MAX_HISTORY_SIZE) := by
    simp only [List.length_append, List.length_singleton, MAX_HISTORY_SIZE]
    omega
  rw [if_neg hcond]
  have harith : (s.history.take (idx0 + 1) ++ [nb]).length - 1 =
      (s.history.take (idx0 + 1)).length := by
    simp
  rw [harith]

theorem updateBlockAt_eval (idx0 : Nat) (s : St) (id c : String) :
    updateBlockAt idx0 s id c =
      ({ (saveToHistoryAt idx0 s (s.blocks.map fun b =>
            if b.id == id then { b with content := c } else b)).1 with
          blocks := s.blocks.map fun b =>
            if b.id == id then { b with content := c } else b },
       (saveToHistoryAt idx0 s (s.blocks.map fun b =>
          if b.id == id then { b with content := c } else b)).2) := rfl

theorem deleteBlockAt_short (idx0 : Nat) (s : St) (id : String)
    (h : s.blocks.length ≤ 1) : deleteBlockAt idx0 s id = (s, none) := by
  unfold deleteBlockAt
  rw [if_pos h]

theorem deleteBlockAt_absent (idx0 : Nat) (s : St) (id : String)
    (hf : findIndex (fun b => b.id == id) s.blocks = none) :
    deleteBlockAt idx0 s id = (s, none) := by
  unfold deleteBlockAt
  split
  · rfl
  · rw [hf]

theorem deleteBlockAt_eval_first (idx0 : Nat) (s : St) (id : String)
    (h2 : 2 ≤ s.blocks.length)
    (hf : findIndex (fun b => b.id == id) s.blocks = some 0) :
    deleteBlockAt idx0 s id =
      ({ (saveToHistoryAt idx0 s
            (s.blocks.filter fun b => !(b.id == id))).1 with
          blocks := s.blocks.filter fun b => !(b.id == id) },
       (saveToHistoryAt idx0 s
          (s.blocks.filter fun b => !(b.id == id))).2) := by
  unfold deleteBlockAt
  rw [if_neg (by omega), hf]

theorem deleteBlockAt_eval (idx0 : Nat) (s : St) (id : String) (i : Nat)
    (prev : Block) (h2 : 2 ≤ s.blocks.length)
    (hf : findIndex (fun b => b.id == id) s.blocks = some (i + 1))
    (hp : s.blocks[i]? = some prev) :
    deleteBlockAt idx0 s id =
      ({ (saveToHistoryAt idx0
            { s with focusBlockId := some prev.id,
                     cursorPosition := prev.content.length }
            (s.blocks.filter fun b => !(b.id == id))).1 with
          blocks := s.blocks.filter fun b => !(b.id == id) },
       (saveToHistoryAt idx0
          { s with focusBlockId := some prev.id,
                   cursorPosition := prev.content.length }
          (s.blocks.filter fun b => !(b.id == id))).2) := by
  unfold deleteBlockAt
  rw [if_neg (by omega), hf]
  simp only []
  have hp2 : s.blocks[i + 1 - 1]? = some prev := by simpa using hp
  rw [hp2]

/-- The live document computed by a render-captured delete call is the
one computed by the plain `deleteBlock`. -/
theorem deleteBlockAt_blocks (idx0 : Nat) (s : St) (id : String) :
    (deleteBlockAt idx0 s id).1.blocks = (deleteBlock s id).blocks := by
  by_cases hlen : s.blocks.length ≤ 1
  · rw [deleteBlockAt_short idx0 s id hlen, deleteBlock_short s id hlen]
  · rcases hf : findIndex (fun b => b.id == id) s.blocks with _ | i
    · rw [deleteBlockAt_absent idx0 s id hf, deleteBlock_absent s id hf]
    · cases i with
      | zero =>
        rw [deleteBlockAt_eval_first idx0 s id (by omega) hf,
          deleteBlock_eval_first s id (by omega) hf]
      | succ j =>
        have hj : j < s.blocks.length := by
          have := findIndex_lt_length hf
          omega
        rw [deleteBlockAt_eval idx0 s id j (s.blocks[j]) (by omega) hf
            (List.getElem?_eq_getElem hj),
          deleteBlock_eval s id j (s.blocks[j]) (by omega) hf
            (List.getElem?_eq_getElem hj)]

/-- `deleteBlock`'s live document depends only on the input document. -/
theorem deleteBlock_blocks_congr (s t : St) (id : String)
    (hb : s.blocks = t.blocks) :
    (deleteBlock s id).blocks = (deleteBlock t id).blocks := by
  by_cases hlen : s.blocks.length ≤ 1
  · rw [deleteBlock_short s id hlen,
      deleteBlock_short t id (by rw [← hb]; exact hlen), hb]
  · have hlen2 : 2 ≤ s.blocks.length := by omega
    rcases hf : findIndex (fun b => b.id == id) s.blocks with _ | i
    · rw [deleteBlock_absent s id hf,
        deleteBlock_absent t id (by rw [← hb]; exact hf), hb]
    · cases i with
      | zero =>
        rw [deleteBlock_eval_first s id hlen2 hf,
          deleteBlock_eval_first t id (by rw [← hb]; exact hlen2)
            (by rw [← hb]; exact hf), hb]
      | succ j =>
        have hj : j < s.blocks.length := by
          have := findIndex_lt_length hf
          omega
        have hj2 : j < t.blocks.length := by rw [← hb]; exact hj
        rw [deleteBlock_eval s id j (s.blocks[j]) hlen2 hf
            (List.getElem?_eq_getElem hj),
          deleteBlock_eval t id j (t.blocks[j])
            (by rw [← hb]; exact hlen2) (by rw [← hb]; exact hf)
            (List.getElem?_eq_getElem hj2)]
        show s.blocks.filter (fun b => !(b.id == id)) =
          t.blocks.filter (fun b => !(b.id == id))
        rw [hb]

/-- The delete loop's live document is the one produced by running the
same deletes sequentially through the plain block store. -/
theorem runDeletesAt_blocks (idx0 : Nat) :
    ∀ (ds : List String) (s t : St) (q : Option Nat), s.blocks = t.blocks →
      (runDeletesAt idx0 ds (s, q)).1.blocks =
        (applyOps t (ds.map Op.delete)).blocks := by
  intro ds
  induction ds with
  | nil =>
    intro s t q hb
    exact hb
  | cons d rest ih =>
    intro s t q hb
    show (runDeletesAt idx0 rest
        ((deleteBlockAt idx0 s d).1,
          (deleteBlockAt idx0 s d).2 <|> q)).1.blocks =
      (applyOps (deleteBlock t d) (rest.map Op.delete)).blocks
    apply ih
    rw [deleteBlockAt_blocks]
    exact deleteBlock_blocks_congr s t d hb

/-- One render-captured delete of a present id, in a state whose
history is the pre-tick log (of length `idx0 + 1`) plus the entry the
previous same-tick call pushed: the call truncates that entry away,
pushes its own document, and queues `idx0 + 1` again. -/
theorem deleteBlockAt_rec (idx0 : Nat) (s : St) (d : String)
    (H : List (List Block))
    (hflag : s.isUndoRedo = false)
    (hh : s.history = H ++ [s.blocks])
    (hH : H.length = idx0 + 1)
    (h99 : idx0 + 1 ≤ 99)
    (hmem : d ∈ s.blocks.map Block.id)
    (h2 : 2 ≤ s.blocks.length) :
    (deleteBlockAt idx0 s d).2 = some (idx0 + 1) ∧
    (deleteBlockAt idx0 s d).1.isUndoRedo = false ∧
    (deleteBlockAt idx0 s d).1.blocks =
      s.blocks.filter (fun b => !(b.id == d)) ∧
    (deleteBlockAt idx0 s d).1.history =
      H ++ [s.blocks.filter (fun b => !(b.id == d))] := by
  have htake : s.history.take (idx0 + 1) = H := by
    rw [hh, ← hH]
    exact List.take_left H [s.blocks]
  have htk : (s.history.take (idx0 + 1)).length ≤ 99 := by
    rw [htake]
    omega
  obtain ⟨b0, hb0, hid0⟩ := List.mem_map.mp hmem
  obtain ⟨i, hf⟩ := @findIndex_isSome_of_mem (fun b => b.id == d) b0
    (by simp [hid0]) s.blocks hb0
  cases i with
  | zero =>
    rw [deleteBlockAt_eval_first idx0 s d h2 hf,
      saveToHistoryAt_normal idx0 s
        (s.blocks.filter fun b => !(b.id == d)) hflag htk]
    refine ⟨?_, hflag, rfl, ?_⟩
    · show some (s.history.take (idx0 + 1)).length = some (idx0 + 1)
      rw [htake, hH]
    · show s.history.take (idx0 + 1) ++
          [s.blocks.filter fun b => !(b.id == d)] =
        H ++ [s.blocks.filter fun b => !(b.id == d)]
      rw [htake]
  | succ j =>
    have hj : j < s.blocks.length := by
      have := findIndex_lt_length hf
      omega
    have hps : ({ s with
        focusBlockId := some (s.blocks[j]).id,
        cursorPosition := (s.blocks[j]).content.length } : St).history =
      s.history := rfl
    rw [deleteBlockAt_eval idx0 s d j (s.blocks[j]) h2 hf
        (List.getElem?_eq_getElem hj),
      saveToHistoryAt_normal idx0
        { s with
          focusBlockId := some (s.blocks[j]).id,
          cursorPosition := (s.blocks[j]).content.length }
        (s.blocks.filter fun b => !(b.id == d)) hflag
        (by rw [hps]; exact htk),
      hps]
    refine ⟨?_, hflag, rfl, ?_⟩
    · show some (s.history.take (idx0 + 1)).length = some (idx0 + 1)
      rw [htake, hH]
    · show s.history.take (idx0 + 1) ++
          [s.blocks.filter fun b => !(b.id == d)] =
        H ++ [s.blocks.filter fun b => !(b.id == d)]
      rw [htake]

/-- The reconciliation's delete loop over distinct present ids, all
sharing the captured index `idx0`: every call truncates away the entry
pushed by the previous same-tick call, so the history ends as the
pre-tick log plus a single entry holding the final document; the queued
index stays `idx0 + 1`; the document loses exactly one block per
delete. -/
theorem runDeletesAt_rec (idx0 : Nat) :
    ∀ (ds : List String) (s : St) (H : List (List Block)),
      s.isUndoRedo = false →
      s.history = H ++ [s.blocks] →
      H.length = idx0 + 1 →
      idx0 + 1 ≤ 99 →
      ds.Nodup →
      (∀ d ∈ ds, d ∈ s.blocks.map Block.id) →
      (s.blocks.map Block.id).Nodup →
      ds.length < s.blocks.length →
      (runDeletesAt idx0 ds (s, some (idx0 + 1))).2 = some (idx0 + 1) ∧
      (runDeletesAt idx0 ds (s, some (idx0 + 1))).1.isUndoRedo = false ∧
      (runDeletesAt idx0 ds (s, some (idx0 + 1))).1.history =
        H ++ [(runDeletesAt idx0 ds (s, some (idx0 + 1))).1.blocks] ∧
      (runDeletesAt idx0 ds (s, some (idx0 + 1))).1.blocks.length +
        ds.length = s.blocks.length ∧
      ((runDeletesAt idx0 ds
        (s, some (idx0 + 1))).1.blocks.map Block.id).Nodup ∧
      (∀ x, x ∈ (runDeletesAt idx0 ds
          (s, some (idx0 + 1))).1.blocks.map Block.id ↔
        (x ∈ s.blocks.map Block.id ∧ x ∉ ds)) := by
  intro ds
  induction ds with
  | nil =>
    intro s H hflag hh hH h99 _ _ hbnd _
    exact ⟨rfl, hflag, hh, rfl, hbnd, fun x => by
      show x ∈ s.blocks.map Block.id ↔
        (x ∈ s.blocks.map Block.id ∧ x ∉ ([] : List String))
      simp⟩
  | cons d rest ih =>
    intro s H hflag hh hH h99 hnd hmem hbnd hlen
    rw [List.nodup_cons] at hnd
    rw [List.length_cons] at hlen
    have h2 : 2 ≤ s.blocks.length := by omega
    have hdmem : d ∈ s.blocks.map Block.id := hmem d (by simp)
    obtain ⟨q2, qflag, qblocks, qhist⟩ :=
      deleteBlockAt_rec idx0 s d H hflag hh hH h99 hdmem h2
    have hflen := filter_length_nodup d s.blocks hbnd hdmem
    have hstep : runDeletesAt idx0 (d :: rest) (s, some (idx0 + 1)) =
        runDeletesAt idx0 rest
          ((deleteBlockAt idx0 s d).1, some (idx0 + 1)) := by
      show runDeletesAt idx0 rest
          ((deleteBlockAt idx0 s d).1,
            (deleteBlockAt idx0 s d).2 <|> some (idx0 + 1)) =
        runDeletesAt idx0 rest ((deleteBlockAt idx0 s d).1, some (idx0 + 1))
      rw [q2]
      rfl
    rw [hstep]
    have hresmem : ∀ e ∈ rest,
        e ∈ (deleteBlockAt idx0 s d).1.blocks.map Block.id := by
      intro e he
      rw [qblocks]
      refine (filter_ids_mem s.blocks d e).mpr ⟨hmem e (by simp [he]), ?_⟩
      rintro rfl
      exact hnd.1 he
    have hresnd : ((deleteBlockAt idx0 s d).1.blocks.map Block.id).Nodup := by
      rw [qblocks]
      exact List.Nodup.sublist
        (List.Sublist.map Block.id (List.filter_sublist s.blocks)) hbnd
    have hq1 : (deleteBlockAt idx0 s d).1.blocks.length + 1 =
        s.blocks.length := by
      rw [qblocks]
      omega
    have hreslen : rest.length < (deleteBlockAt idx0 s d).1.blocks.length := by
      omega
    have hresh : (deleteBlockAt idx0 s d).1.history =
        H ++ [(deleteBlockAt idx0 s d).1.blocks] := by
      rw [qhist, qblocks]
    obtain ⟨p1, p2, p3, p4, p5, p6⟩ := ih (deleteBlockAt idx0 s d).1 H
      qflag hresh hH h99 hnd.2 hresmem hresnd hreslen
    refine ⟨p1, p2, p3, ?_, p5, ?_⟩
    · rw [List.length_cons]
      omega
    · intro x
      constructor
      · intro hx
        obtain ⟨hx1, hx2⟩ := (p6 x).mp hx
        rw [qblocks] at hx1
        obtain ⟨hx3, hx4⟩ := (filter_ids_mem s.blocks d x).mp hx1
        refine ⟨hx3, ?_⟩
        intro hc
        rcases List.mem_cons.mp hc with hc | hc
        · exact hx4 hc
        · exact hx2 hc
      · rintro ⟨hx1, hx2⟩
        have hxd : x ≠ d := fun hc => hx2 (by rw [hc]; simp)
        have hxt : x ∉ rest := fun hc => hx2 (by simp [hc])
        refine (p6 x).mpr ⟨?_, hxt⟩
        rw [qblocks]
        exact (filter_ids_mem s.blocks d x).mpr ⟨hx1, hxd⟩

/-- Undoing once from a state whose last history entry was just pushed
on top of a `RecState` yields that state's document. -/
theorem undo_pop (sMid sFin : St) (hm : RecState sMid)
    (hh : sFin.history = sMid.history ++ [sFin.blocks])
    (hR : RecState sFin) :
    (undo sFin).blocks = sMid.blocks := by
  obtain ⟨_, hmidx, hmget⟩ := hm
  obtain ⟨_, hfidx, _⟩ := hR
  have hmlt : sMid.historyIndex < sMid.history.length := getElem?_some_lt hmget
  have hflen : sFin.history.length = sMid.history.length + 1 := by
    rw [hh]; simp
  have h0 : 0 < sFin.historyIndex := by omega
  have he : sFin.history[sFin.historyIndex - 1]? = some sMid.blocks := by
    rw [hh]
    have hfi : sFin.historyIndex - 1 = sMid.historyIndex := by omega
    rw [hfi, List.getElem?_append, if_pos hmlt]
    exact hmget
  unfold undo
  rw [if_pos h0]
  simp only [he, Option.getD_some]

theorem handleSelectionAction_multi (es : EditorSt) (txt : String)
    (ids : List String) (tb ta r : String)
    (hfl : es.isRewriting = false) (htrim : jsTrim txt ≠ "")
    (hk : 2 ≤ ids.length) :
    handleSelectionAction es false txt ids tb ta true (.ok r) =
      { bs := { (runDeletesAt es.bs.historyIndex (ids.drop 1).reverse
            (updateBlockAt es.bs.historyIndex es.bs (ids.headD "")
              (tb ++ r ++ ta))).1 with
          historyIndex :=
            (runDeletesAt es.bs.historyIndex (ids.drop 1).reverse
              (updateBlockAt es.bs.historyIndex es.bs (ids.headD "")
                (tb ++ r ++ ta))).2.getD es.bs.historyIndex },
        isRewriting := false } := by
  unfold handleSelectionAction
  rw [hfl]
  have htr : (jsTrim txt == "") = false := beq_eq_false_iff_ne.mpr htrim
  rw [htr]
  simp only [Bool.or_self, Bool.false_eq_true, if_false]
  rw [if_pos (show ids.length > 1 by omega)]
  simp only [if_true]

/-- Claim C10 (amended): a successful rewrite whose selection spans
`k ≥ 2` distinct present blocks (no replay pending, cursor at the end
of a log with room for one more entry) is reconciled at the document
level as one `updateContent` of the first affected block followed by
`k - 1` deletes processed last to first; but all these same-tick calls
share the same render-captured `historyIndex`, so each recording call
truncates away the entry pushed by the previous one: the history grows
by exactly ONE entry, holding only the final reconciled document, the
cursor advances by one, and a single undo always restores the
pre-rewrite document — against the claimed growth by `k` and the
claimed irrecoverability by a single undo. -/
theorem multiblock_rewrite_history (es : EditorSt) (txt : String)
    (ids : List String) (tb ta r : String)
    (hfl : es.isRewriting = false)
    (htrim : jsTrim txt ≠ "")
    (hk : 2 ≤ ids.length)
    (hnd : ids.Nodup)
    (hmem : ∀ d ∈ ids, d ∈ es.bs.blocks.map Block.id)
    (hbnd : (es.bs.blocks.map Block.id).Nodup)
    (hrec : RecState es.bs)
    (h99 : es.bs.history.length ≤ 99) :
    (handleSelectionAction es false txt ids tb ta true
      (.ok r)).isRewriting = false ∧
    (handleSelectionAction es false txt ids tb ta true (.ok r)).bs.blocks =
      (applyOps es.bs (reconcileOps ids (tb ++ r ++ ta))).blocks ∧
    (handleSelectionAction es false txt ids tb ta true (.ok r)).bs.history =
      es.bs.history ++
        [(handleSelectionAction es false txt ids tb ta true
          (.ok r)).bs.blocks] ∧
    (handleSelectionAction es false txt ids tb ta true
      (.ok r)).bs.historyIndex = es.bs.historyIndex + 1 ∧
    (undo (handleSelectionAction es false txt ids tb ta true
      (.ok r)).bs).blocks = es.bs.blocks := by
  obtain ⟨hflag, hidx, hget⟩ := hrec
  have h99i : es.bs.historyIndex + 1 ≤ 99 := by omega
  have htake : es.bs.history.take (es.bs.historyIndex + 1) =
      es.bs.history := by
    rw [hidx]
    exact List.take_length es.bs.history
  have htk : (es.bs.history.take (es.bs.historyIndex + 1)).length ≤ 99 := by
    rw [htake]
    exact h99
  have hu : updateBlockAt es.bs.historyIndex es.bs (ids.headD "")
      (tb ++ r ++ ta) =
      ({ es.bs with
          history := es.bs.history ++ [es.bs.blocks.map fun b =>
            if b.id == ids.headD "" then { b with content := tb ++ r ++ ta }
            else b],
          blocks := es.bs.blocks.map fun b =>
            if b.id == ids.headD "" then { b with content := tb ++ r ++ ta }
            else b },
       some (es.bs.historyIndex + 1)) := by
    rw [updateBlockAt_eval,
      saveToHistoryAt_normal es.bs.historyIndex es.bs
        (es.bs.blocks.map fun b =>
          if b.id == ids.headD "" then { b with content := tb ++ r ++ ta }
          else b) hflag htk,
      htake, ← hidx]
  have hupair : updateBlockAt es.bs.historyIndex es.bs (ids.headD "")
      (tb ++ r ++ ta) =
      ((updateBlockAt es.bs.historyIndex es.bs (ids.headD "")
        (tb ++ r ++ ta)).1, some (es.bs.historyIndex + 1)) := by
    rw [hu]
  have hids1 : (updateBlockAt es.bs.historyIndex es.bs (ids.headD "")
      (tb ++ r ++ ta)).1.blocks.map Block.id =
      es.bs.blocks.map Block.id := by
    rw [hu]
    exact update_ids es.bs.blocks (ids.headD "") (tb ++ r ++ ta)
  have hulen : (updateBlockAt es.bs.historyIndex es.bs (ids.headD "")
      (tb ++ r ++ ta)).1.blocks.length = es.bs.blocks.length := by
    rw [hu]
    simp
  have hkb : ids.length ≤ es.bs.blocks.length := by
    have h := nodup_subset_length ids (es.bs.blocks.map Block.id) hnd hmem
    simpa using h
  have hds_len : ((ids.drop 1).reverse).length = ids.length - 1 := by simp
  have hds_nd : ((ids.drop 1).reverse).Nodup :=
    List.nodup_reverse.mpr (List.Nodup.sublist (List.drop_sublist 1 ids) hnd)
  have hds_mem : ∀ d ∈ (ids.drop 1).reverse, d ∈ ids := fun d hd =>
    List.mem_of_mem_drop (List.mem_reverse.mp hd)
  obtain ⟨p1, p2, p3, _, _, _⟩ :=
    runDeletesAt_rec es.bs.historyIndex ((ids.drop 1).reverse)
      ((updateBlockAt es.bs.historyIndex es.bs (ids.headD "")
        (tb ++ r ++ ta)).1)
      es.bs.history
      (by rw [hu]; exact hflag)
      (by rw [hu])
      hidx.symm
      h99i
      hds_nd
      (fun d hd => by rw [hids1]; exact hmem d (hds_mem d hd))
      (by rw [hids1]; exact hbnd)
      (by rw [hulen, hds_len]; omega)
  rw [handleSelectionAction_multi es txt ids tb ta r hfl htrim hk, hupair]
  refine ⟨rfl, ?_, ?_, ?_, ?_⟩
  · exact runDeletesAt_blocks es.bs.historyIndex ((ids.drop 1).reverse)
      ((updateBlockAt es.bs.historyIndex es.bs (ids.headD "")
        (tb ++ r ++ ta)).1)
      (updateBlock es.bs (ids.headD "") (tb ++ r ++ ta))
      (some (es.bs.historyIndex + 1))
      (by rw [hu]; rfl)
  · exact p3
  · show (runDeletesAt es.bs.historyIndex ((ids.drop 1).reverse)
        ((updateBlockAt es.bs.historyIndex es.bs (ids.headD "")
          (tb ++ r ++ ta)).1,
         some (es.bs.historyIndex + 1))).2.getD es.bs.historyIndex =
      es.bs.historyIndex + 1
    rw [p1]
    rfl
  · have hfinlen : (runDeletesAt es.bs.historyIndex ((ids.drop 1).reverse)
        ((updateBlockAt es.bs.historyIndex es.bs (ids.headD "")
          (tb ++ r ++ ta)).1,
         some (es.bs.historyIndex + 1))).1.history.length =
        es.bs.history.length + 1 := by
      rw [p3]
      simp
    have hRidx1 : (runDeletesAt es.bs.historyIndex ((ids.drop 1).reverse)
        ((updateBlockAt es.bs.historyIndex es.bs (ids.headD "")
          (tb ++ r ++ ta)).1,
         some (es.bs.historyIndex + 1))).2.getD es.bs.historyIndex + 1 =
        (runDeletesAt es.bs.historyIndex ((ids.drop 1).reverse)
          ((updateBlockAt es.bs.historyIndex es.bs (ids.headD "")
            (tb ++ r ++ ta)).1,
           some (es.bs.historyIndex + 1))).1.history.length := by
      rw [p1, hfinlen, ← hidx]
      rfl
    have hidxeq : (runDeletesAt es.bs.historyIndex ((ids.drop 1).reverse)
        ((updateBlockAt es.bs.historyIndex es.bs (ids.headD "")
          (tb ++ r ++ ta)).1,
         some (es.bs.historyIndex + 1))).2.getD es.bs.historyIndex =
        es.bs.history.length := by
      rw [p1, hidx]
      rfl
    have hRget0 : (runDeletesAt es.bs.historyIndex ((ids.drop 1).reverse)
        ((updateBlockAt es.bs.historyIndex es.bs (ids.headD "")
          (tb ++ r ++ ta)).1,
         some (es.bs.historyIndex + 1))).1.history[
        (runDeletesAt es.bs.historyIndex ((ids.drop 1).reverse)
          ((updateBlockAt es.bs.historyIndex es.bs (ids.headD "")
            (tb ++ r ++ ta)).1,
           some (es.bs.historyIndex + 1))).2.getD es.bs.historyIndex]? =
        some (runDeletesAt es.bs.historyIndex ((ids.drop 1).reverse)
          ((updateBlockAt es.bs.historyIndex es.bs (ids.headD "")
            (tb ++ r ++ ta)).1,
           some (es.bs.historyIndex + 1))).1.blocks := by
      rw [hidxeq, p3]
      exact List.getElem?_concat_length es.bs.history _
    exact undo_pop es.bs _ ⟨hflag, hidx, hget⟩ p3 ⟨p2, hRidx1, hRget0⟩

/-- Claim C10 counterexample: a successful rewrite spanning `k = 2`
blocks starting from a fresh document.  The history grows by one entry,
not two — the second reconciliation call, sharing the stale captured
index, truncates away the entry pushed by the first — and a single undo
restores the pre-rewrite document exactly, refuting both the claimed
per-operation recording and "a single undo does not restore the
pre-rewrite document". -/
theorem multiblock_rewrite_single_undo_cex :
    (handleSelectionAction
        { bs := initState [mkB "a" "AB", mkB "b" "C"], isRewriting := false }
        false "B C" ["a", "b"] "A" "" true (.ok "B")).bs.history.length =
      (initState [mkB "a" "AB", mkB "b" "C"]).history.length + 1 ∧
    ¬ ((handleSelectionAction
        { bs := initState [mkB "a" "AB", mkB "b" "C"], isRewriting := false }
        false "B C" ["a", "b"] "A" "" true (.ok "B")).bs.history.length =
      (initState [mkB "a" "AB", mkB "b" "C"]).history.length + 2) ∧
    (undo (handleSelectionAction
        { bs := initState [mkB "a" "AB", mkB "b" "C"], isRewriting := false }
        false "B C" ["a", "b"] "A" "" true (.ok "B")).bs).blocks =
      (initState [mkB "a" "AB", mkB "b" "C"]).blocks := by
  decide

/-- Witness for the amended C10 at a concrete three-block document with
a two-block selection. -/
theorem multiblock_rewrite_history_witness :
    (handleSelectionAction
        { bs := initState [mkB "a" "x", mkB "b" "y", mkB "c" "z"],
          isRewriting := false }
        false "xy" ["a", "b"] "t" "u" true (.ok "R")).isRewriting = false ∧
    (handleSelectionAction
        { bs := initState [mkB "a" "x", mkB "b" "y", mkB "c" "z"],
          isRewriting := false }
        false "xy" ["a", "b"] "t" "u" true (.ok "R")).bs.blocks =
      (applyOps (initState [mkB "a" "x", mkB "b" "y", mkB "c" "z"])
        (reconcileOps ["a", "b"] ("t" ++ "R" ++ "u"))).blocks ∧
    (handleSelectionAction
        { bs := initState [mkB "a" "x", mkB "b" "y", mkB "c" "z"],
          isRewriting := false }
        false "xy" ["a", "b"] "t" "u" true (.ok "R")).bs.history =
      (initState [mkB "a" "x", mkB "b" "y", mkB "c" "z"]).history ++
        [(handleSelectionAction
          { bs := initState [mkB "a" "x", mkB "b" "y", mkB "c" "z"],
            isRewriting := false }
          false "xy" ["a", "b"] "t" "u" true (.ok "R")).bs.blocks] ∧
    (handleSelectionAction
        { bs := initState [mkB "a" "x", mkB "b" "y", mkB "c" "z"],
          isRewriting := false }
        false "xy" ["a", "b"] "t" "u" true
          (.ok "R")).bs.historyIndex =
      (initState [mkB "a" "x", mkB "b" "y", mkB "c" "z"]).historyIndex + 1 ∧
    (undo (handleSelectionAction
        { bs := initState [mkB "a" "x", mkB "b" "y", mkB "c" "z"],
          isRewriting := false }
        false "xy" ["a", "b"] "t" "u" true (.ok "R")).bs).blocks =
      (initState [mkB "a" "x", mkB "b" "y", mkB "c" "z"]).blocks := by
  have h := multiblock_rewrite_history
    { bs := initState [mkB "a" "x", mkB "b" "y", mkB "c" "z"],
      isRewriting := false }
    "xy" ["a", "b"] "t" "u" "R" rfl (by decide) (by decide) (by decide)
    (by decide) (by decide) ⟨rfl, rfl, rfl⟩ (by decide)
  exact ⟨h.1, h.2.1, h.2.2.1, h.2.2.2.1, h.2.2.2.2⟩

/-! ### Claims about history recording -/

/-- Claim C1 (code bug evidence): starting from a one-block document,
after one recorded mutation, an undo, and a fresh mutation, `canRedo`
is still `true` — the replay flag set by `undo` suppresses recording of
the next real mutation, so the redo tail is never discarded.  The spec
requires `canRedo = false` here.  (`canUndo` is also left `false`, so
the fresh mutation is not undoable either.) -/
theorem redo_available_after_undo_then_mutation :
    canRedo (updateBlock (undo (updateBlock (initState [mkB "a" "x"]) "a" "y"))
      "a" "z") = true ∧
    (updateBlock (undo (updateBlock (initState [mkB "a" "x"]) "a" "y"))
      "a" "z").blocks = [mkB "a" "z"] ∧
    canUndo (updateBlock (undo (updateBlock (initState [mkB "a" "x"]) "a" "y"))
      "a" "z") = false := by
  decide

/-- Claim C2 counterexample: `updateBlock` with an id absent from the
document leaves the blocks unchanged but still records a history entry,
so the history log, cursor and `canUndo` change. -/
theorem updateContent_missing_id_cex :
    (updateBlock (initState [mkB "a" "x"]) "zzz" "y").blocks =
      (initState [mkB "a" "x"]).blocks ∧
    (updateBlock (initState [mkB "a" "x"]) "zzz" "y").history.length = 2 ∧
    (initState [mkB "a" "x"]).history.length = 1 ∧
    canUndo (updateBlock (initState [mkB "a" "x"]) "zzz" "y") = true ∧
    canUndo (initState [mkB "a" "x"]) = false := by
  decide

/-- Claim C2 amended: with no replay pending and the cursor at the end
of a non-full log, `updateContent` on an absent id returns the document
unchanged but still records a (duplicate) History Entry: the log grows
by one, the cursor moves to the new entry, `canUndo` becomes true and
`canRedo` false. -/
theorem updateContent_missing_id_amended (s : St) (id content : String)
    (hid : ∀ b ∈ s.blocks, b.id ≠ id)
    (hflag : s.isUndoRedo = false)
    (hidx : s.historyIndex + 1 = s.history.length)
    (hlen : s.history.length ≤ 99) :
    (updateBlock s id content).blocks = s.blocks ∧
    (updateBlock s id content).history = s.history ++ [s.blocks] ∧
    (updateBlock s id content).historyIndex = s.history.length ∧
    canUndo (updateBlock s id content) = true ∧
    canRedo (updateBlock s id content) = false := by
  have hnew : s.blocks.map
      (fun b => if b.id == id then { b with content := content } else b) =
      s.blocks :=
    map_eq_self_of fun b hb => by simp [hid b hb]
  rw [updateBlock_def, hnew, saveToHistory_normal s s.blocks hflag hidx hlen]
  refine ⟨rfl, rfl, rfl, ?_, ?_⟩
  · simp [canUndo]
    omega
  · simp [canRedo]

/-- Witness for the amended C2 at a concrete one-block document. -/
theorem updateContent_missing_id_amended_witness :
    (updateBlock (initState [mkB "a" "x"]) "zzz" "y").blocks =
      (initState [mkB "a" "x"]).blocks ∧
    (updateBlock (initState [mkB "a" "x"]) "zzz" "y").history =
      (initState [mkB "a" "x"]).history ++ [(initState [mkB "a" "x"]).blocks] ∧
    (updateBlock (initState [mkB "a" "x"]) "zzz" "y").historyIndex =
      (initState [mkB "a" "x"]).history.length ∧
    canUndo (updateBlock (initState [mkB "a" "x"]) "zzz" "y") = true ∧
    canRedo (updateBlock (initState [mkB "a" "x"]) "zzz" "y") = false :=
  updateContent_missing_id_amended (initState [mkB "a" "x"]) "zzz" "y"
    (by decide) rfl rfl (by decide)

/-- Claim C9: when the external rewrite call fails, no block store
mutation is applied — blocks and history are exactly as before the
invocation — and the in-flight flag is cleared. -/
theorem rewrite_failure_leaves_state (es : EditorSt) (selectedText : String)
    (ids : List String) (tb ta : String) (dom : Bool) (msg : String)
    (hfl : es.isRewriting = false)
    (htrim : jsTrim selectedText ≠ "") :
    (handleSelectionAction es false selectedText ids tb ta dom
        (.error msg)).bs = es.bs ∧
    (handleSelectionAction es false selectedText ids tb ta dom
        (.error msg)).isRewriting = false := by
  unfold handleSelectionAction
  rw [hfl]
  simp [htrim]

/-- Witness for C9 at a concrete failing invocation. -/
theorem rewrite_failure_leaves_state_witness :
    (handleSelectionAction { bs := initState [mkB "a" "x"], isRewriting := false }
        false "x" ["a"] "" "" true (.error "boom")).bs =
      initState [mkB "a" "x"] ∧
    (handleSelectionAction { bs := initState [mkB "a" "x"], isRewriting := false }
        false "x" ["a"] "" "" true (.error "boom")).isRewriting = false :=
  rewrite_failure_leaves_state
    { bs := initState [mkB "a" "x"], isRewriting := false }
    "x" ["a"] "" "" true "boom" rfl (by decide)

/-- Witness for C7 at a concrete two-block document, inserting in the
middle and (absent id) at the end. -/
theorem insertAfter_spec_witness :
    (addBlockAfter (initState [mkB "p" "foo", mkB "q" "bar"]) "p" "n" "new").2
      = "n" ∧
    (addBlockAfter (initState [mkB "p" "foo", mkB "q" "bar"]) "p" "n" "new").1.blocks
      = [mkB "p" "foo", mkB "n" "new", mkB "q" "bar"] := by
  have h := insertAfter_spec (initState [mkB "p" "foo", mkB "q" "bar"])
    "p" "n" "new" (by decide)
  refine ⟨h.1, ?_⟩
  have h5 := h.2.2.2.2.1 0 (by decide)
  rw [h5]; decide

end NotionBlocks
